import Mathlib

/-!
Verification development for the DeepAR time-series forecasting primitive
(`kf_d3m_primitives/ts_forecasting/deep_ar/deepar.py`).

Time points are modelled as integers (seconds since an epoch), table cells as
`Option` values (`none` = NaN/NaT), real-valued cells as rationals.  The helper
modules `time_utils.py`, `deepar_forecast.py` and `deepar_dataset.py` are not
part of the sources; the definitions drawn from them are marked
`Modelled from the spec:` in their doc comments.
-/

namespace DeepAr

/-- One row of a data frame: grouping column, timestamp column, target column,
one real-valued feature column and one categorical feature column.
`none` models a missing cell (NaN / NaT). -/
structure Row where
  grp : Option String
  ts : Option Int
  target : Option Rat
  real : Option Rat
  cat : Option String
deriving DecidableEq, Repr

/-- Timestamp comparison used by `sort_values`: missing timestamps (NaT) are
placed last, mirroring pandas' default `na_position="last"`. -/
def tsLEb : Option Int → Option Int → Bool
  | _, none => true
  | none, some _ => false
  | some a, some b => a ≤ b

/-- Row ordering by the timestamp column. -/
def rowLE (a b : Row) : Prop := tsLEb a.ts b.ts = true

instance : DecidableRel rowLE := fun _ _ => inferInstanceAs (Decidable (_ = true))

instance : IsTotal Row rowLE :=
  ⟨fun a b => by
    cases ha : a.ts <;> cases hb : b.ts <;>
      simp_all [rowLE, tsLEb] <;> omega⟩

instance : IsTrans Row rowLE :=
  ⟨fun a b c hab hbc => by
    cases ha : a.ts <;> cases hb : b.ts <;> cases hc : c.ts <;>
      simp_all [rowLE, tsLEb] <;> omega⟩

/-- Worker for `firstSeen`: skip elements already seen. -/
def firstSeenGo {α : Type} [DecidableEq α] (seen : List α) : List α → List α
  | [] => []
  | a :: t =>
      if a ∈ seen then firstSeenGo seen t else a :: firstSeenGo (a :: seen) t

/-- Keys of a list in first-encountered order, duplicates removed (the order
`pandas.groupby(..., sort=False)` enumerates groups in). -/
def firstSeen {α : Type} [DecidableEq α] (l : List α) : List α :=
  firstSeenGo [] l

/-- Worker for `dedupByTs`: skip rows whose timestamp was already seen. -/
def dedupByTsGo (seen : List (Option Int)) : List Row → List Row
  | [] => []
  | r :: t =>
      if r.ts ∈ seen then dedupByTsGo seen t
      else r :: dedupByTsGo (r.ts :: seen) t

/-- `drop_duplicates(subset=timestamp_column)`: keep the first row for every
timestamp value; two missing timestamps count as equal (pandas treats NaN/NaT
as duplicates of each other). -/
def dedupByTs (l : List Row) : List Row :=
  dedupByTsGo [] l

/-- An all-missing row, as introduced by `reindex` for grid points that have no
matching source row (the timestamp column of such a row is NaT: the grid time
lives only in the frame's index). -/
def gapRow : Row := ⟨none, none, none, none, none⟩

/-- The arithmetic progression `t0, t0+p, ..., t0+p*(n-1)`. -/
def arithProg (t0 p : Int) (n : Nat) : List Int :=
  (List.range n).map (fun (i : Nat) => t0 + p * (i : Int))

/-- `pd.date_range(t0, t1, freq=p)`: all points `t0 + i*p ≤ t1`. -/
def gridRange (t0 t1 p : Int) : List Int :=
  arithProg t0 p (((t1 - t0) / p).toNat + 1)

/-- Positions of a column that carry a value, with those values. -/
def validEntries (l : List (Option Rat)) : List (Nat × Rat) :=
  l.enum.filterMap (fun jv => jv.2.map (fun v => (jv.1, v)))

/-- Last valid entry strictly before position `i`. -/
def prevValid (l : List (Option Rat)) (i : Nat) : Option (Nat × Rat) :=
  ((validEntries l).filter (fun jv => jv.1 < i)).getLast?

/-- First valid entry strictly after position `i`. -/
def nextValid (l : List (Option Rat)) (i : Nat) : Option (Nat × Rat) :=
  ((validEntries l).filter (fun jv => i < jv.1)).head?

/-- Value of `Series.interpolate()` (pandas defaults: `method="linear"`,
`limit_direction="forward"`) at position `i`: existing values are kept, a gap
between two valid entries is filled linearly, a gap after the last valid entry
repeats its value, and leading gaps stay missing. -/
def interpAt (l : List (Option Rat)) (i : Nat) : Option Rat :=
  match l[i]? with
  | some (some v) => some v
  | _ =>
    match prevValid l i, nextValid l i with
    | some jv, some kv =>
        some (jv.2 + (kv.2 - jv.2) * ((i : Rat) - (jv.1 : Rat)) / ((kv.1 : Rat) - (jv.1 : Rat)))
    | some jv, none => some jv.2
    | none, _ => none

/-- Value of `Series.ffill()` at position `i`: the last value present at a
position `≤ i`. -/
def ffillAt {α : Type} (l : List (Option α)) (i : Nat) : Option α :=
  ((l.take (i + 1)).filterMap id).getLast?

/-- Column-wise imputation applied after reindexing: the real-valued feature
column is interpolated, the categorical and grouping columns are
forward-filled; timestamp and target columns are untouched. -/
def applyCols (rows : List Row) : List Row :=
  (List.range rows.length).map (fun i =>
    match rows[i]? with
    | some r =>
        { r with
          real := interpAt (rows.map (fun x => x.real)) i,
          cat := ffillAt (rows.map (fun x => x.cat)) i,
          grp := ffillAt (rows.map (fun x => x.grp)) i }
    | none => gapRow)

/-- Result of the Series Regularizer: the regularized rows, the frame's index
(the time labels; the `ts` column of a gap row is NaT, its time lives only
here) and the post-sort, pre-dedup timestamp sequence (`original_times`). -/
structure RegOut where
  rows : List Row
  index : List (Option Int)
  originalTimes : List (Option Int)
deriving DecidableEq, Repr

/-- Body of `DeepArPrimitive._robust_reindex` after the sort: drop duplicate
timestamps keeping the first, and, when more than one row remains, reindex
onto the contiguous grid spanning first..last at step `p` (gap rows are
all-missing; source rows whose timestamp misses the grid are dropped), then
interpolate the real column and forward-fill the categorical/grouping columns.
`pd.date_range` raises when either end of the range is NaT, which is the
error case. -/
def regularizeSorted (p : Int) (sorted : List Row) : Except String RegOut :=
  let originalTimes := sorted.map (fun r => r.ts)
  let dd := dedupByTs sorted
  if dd.length ≤ 1 then
    Except.ok ⟨applyCols dd, dd.map (fun r => r.ts), originalTimes⟩
  else
    match dd.head?.bind (fun r => r.ts), dd.getLast?.bind (fun r => r.ts) with
    | some t0, some t1 =>
        let grid := gridRange t0 t1 p
        Except.ok
          ⟨applyCols (grid.map (fun g =>
              ((dd.find? (fun r => decide (r.ts = some g))).getD gapRow))),
           grid.map some, originalTimes⟩
    | _, _ => Except.error "cannot reindex from missing timestamps"

/-- The Series Regularizer (`DeepArPrimitive._robust_reindex`) acting on rows
whose timestamps are already absolute time points: sort by timestamp, then
dedup, reindex and impute via `regularizeSorted`. -/
def robust_reindex (p : Int) (frame : List Row) : Except String RegOut :=
  regularizeSorted p (List.insertionSort rowLE frame)

/-- Modelled from the spec: `time_utils.calculate_time_frequency` is not among
the sources.  Per §4.1 it classifies a duration into a closed set of canonical
frequencies, each paired with a reindex frequency (business-day style cadences
reindex on a daily grid).  Durations are in seconds. -/
def calculate_time_frequency (diff : Int) : String × String :=
  if diff = 60 then ("T", "T")
  else if diff = 3600 then ("H", "H")
  else if diff = 86400 then ("D", "D")
  else if diff = 604800 then ("W", "D")
  else ("S", "S")

/-- Seconds per period of a canonical/reindex frequency label. -/
def periodOf : String → Int
  | "T" => 60
  | "H" => 3600
  | "D" => 86400
  | "W" => 604800
  | _ => 1

/-- Timestamp conversion performed by `_sort_by_timestamp`: when the timestamp
column carries the `http://schema.org/Integer` semantic type, a raw value `v`
becomes `pd.to_datetime(v - 1, unit="D")`, i.e. the time point `(v-1)` days
after the epoch; otherwise raw values are epoch seconds
(`pd.to_datetime(v, unit="s")`). -/
def convertTs (intTime : Bool) (v : Int) : Int :=
  if intTime then (v - 1) * 86400 else v

/-- Convert every timestamp cell of a frame. -/
def convertFrame (intTime : Bool) (frame : List Row) : List Row :=
  frame.map (fun r => { r with ts := r.ts.map (convertTs intTime) })

/-- Modelled from the spec: `time_utils.discretize_time_difference` is not
among the sources.  Per §4.4 it yields the number of canonical-frequency
periods between `start` and `t`, floor-discretized (`zero_index=True`).  A
missing timestamp never occurs on this path for well-formed queries; it is
mapped to 0. -/
def discretizeO (t : Option Int) (start p : Int) : Int :=
  match t with
  | some v => (v - start) / p
  | none => 0

/-- `DeepArPrimitive._get_pred_intervals`, ungrouped branch: one offset per
original timestamp, `discretize_time_difference(..., zero_index=True) + 1`. -/
def get_pred_intervals_ungrouped (p minTrain : Int) (times : List (Option Int)) :
    List Int :=
  (times.map (fun t => discretizeO t minTrain p)).map (fun x => x + 1)

/-- `DeepArPrimitive._get_pred_intervals`, grouped branch: for a group present
in the fitted `min_trains` map the offsets are discretized differences; for an
unseen group the intervals are `np.zeros(len(times))`.  In both cases the
final `np.array(intervals) + 1` increments every entry. -/
def get_pred_intervals (p : Int) (minTrains : List (String × Int))
    (originalTimes : List (String × List (Option Int))) : List (List Int) :=
  originalTimes.map (fun gt =>
    let intervals :=
      match minTrains.lookup gt.1 with
      | some mt => gt.2.map (fun t => discretizeO t mt p)
      | none => gt.2.map (fun _ => (0 : Int))
    intervals.map (fun x => x + 1))

/-- Modelled from the spec: the Forecast Projector (`deepar_forecast.py` is not
among the sources).  Per §4.5, for offset `o` and a horizon array `arr` of
length `H`: if `1 ≤ o ≤ H` the value is `arr[o-1]`; otherwise the padding
policy applies — a missing marker under nan-padding, else the last valid
in-horizon value is repeated. -/
def project (nanPadding : Bool) (arr : List Rat) (o : Int) : Option Rat :=
  if 1 ≤ o ∧ o ≤ arr.length then arr[(o - 1).toNat]?
  else if nanPadding then none
  else arr.getLast?

/-- Group key of a row as used by `groupby` over the grouping columns. -/
def keyOf (r : Row) : String := r.grp.getD ""

/-- Partition a frame by group key in first-encountered order
(`groupby(g_cols, sort=False)`). -/
def partitionByGrp (frame : List Row) : List (String × List Row) :=
  (firstSeen (frame.map keyOf)).map (fun g => (g, frame.filter (fun r => keyOf r = g)))

/-- Timestamps of `_sort_by_timestamp`'s output for one partition: converted,
sorted, duplicates still present (this is what `_robust_reindex` captures as
`original_times`). -/
def sortedTsOf (intTime : Bool) (rows : List Row) : List (Option Int) :=
  (List.insertionSort rowLE (convertFrame intTime rows)).map (fun r => r.ts)

/-- Per-group `original_times` as assembled by `_reindex` at produce time. -/
def origTimesOf (intTime : Bool) (frame : List Row) : List (String × List (Option Int)) :=
  (partitionByGrp frame).map (fun gp => (gp.1, sortedTsOf intTime gp.2))

/-- The offset `_get_pred_intervals` assigns to one timestamp of group `g`:
discretized difference to the group's train start plus one for a fitted
group, the incremented sentinel for an unseen group. -/
def offsetOf (p : Int) (minTrains : List (String × Int)) (g : String)
    (t : Option Int) : Int :=
  match minTrains.lookup g with
  | some mt => discretizeO t mt p + 1
  | none => 0 + 1

/-- Modelled from the spec: the external model's per-group forecast arrays
(`DeepARForecast` is not among the sources).  `M g j` is the horizon array of
statistic `j` (0 = point estimate, then one row per configured quantile) for
group `g`; a ForecastArray has exactly `1 + |quantiles|` statistic rows. -/
def predsOf (M : String → Nat → List Rat) (numQuantiles : Nat)
    (groups : List String) : List (List (List Rat)) :=
  groups.map (fun g => (List.range (1 + numQuantiles)).map (fun j => M g j))

/-- `DeepArPrimitive.produce`'s assembly step:
`np.concatenate([series[0][idxs] for series, idxs in zip(all_preds, pred_intervals)])`,
with each selected entry resolved through the projector. -/
def pointEstimates (nanPadding : Bool) (preds : List (List (List Rat)))
    (intervals : List (List Int)) : List (Option Rat) :=
  ((preds.zip intervals).map (fun si =>
    si.2.map (fun o => project nanPadding (si.1.headD []) o))).flatten

/-- Column `j` assembled by `produce_confidence_intervals`: the concatenation
over groups of statistic `j` selected at that group's offsets. -/
def statColumn (nanPadding : Bool) (preds : List (List (List Rat)))
    (intervals : List (List Int)) (j : Nat) : List (Option Rat) :=
  ((preds.zip intervals).map (fun si =>
    si.2.map (fun o => project nanPadding (si.1.getD j []) o))).flatten

/-- `all_quantiles` of `produce_confidence_intervals`: one list per statistic
index `0 .. |quantiles|`. -/
def allQuantilesOf (nanPadding : Bool) (numQuantiles : Nat)
    (preds : List (List (List Rat))) (intervals : List (List Int)) :
    List (List (Option Rat)) :=
  (List.range (1 + numQuantiles)).map (statColumn nanPadding preds intervals)

/-- Insertion into a Python `dict`: a fresh key is appended, a repeated key
keeps its original position and takes the new value. -/
def dictInsert {α β : Type} [DecidableEq α] (d : List (α × β)) (k : α) (v : β) :
    List (α × β) :=
  if d.any (fun kv => kv.1 = k) then
    d.map (fun kv => if kv.1 = k then (k, v) else kv)
  else d ++ [(k, v)]

/-- The dict comprehension
`{col_name: quantile for col_name, quantile in zip(col_names, all_quantiles)}`. -/
def pythonDict {α β : Type} [DecidableEq α] (l : List (α × β)) : List (α × β) :=
  l.foldl (fun d kv => dictInsert d kv.1 kv.2) []

/-- Columns of the `produce_confidence_intervals` result frame:
`col_names = (0.5,) + quantiles` zipped with `all_quantiles`, assembled as a
Python dict (duplicate keys collapse). -/
def ciColumns (nanPadding : Bool) (quantiles : List Rat)
    (preds : List (List (List Rat))) (intervals : List (List Int)) :
    List (Rat × List (Option Rat)) :=
  pythonDict (((1 : Rat) / 2 :: quantiles).zip
    (allQuantilesOf nanPadding quantiles.length preds intervals))

/-- The prediction that belongs to one query row: its group's forecast array
(statistic 0) resolved at the offset of its own timestamp; rows of groups
absent from `min_trains` carry the sentinel interval. -/
def rowValue (M : String → Nat → List Rat) (nanPadding : Bool)
    (intTime : Bool) (p : Int) (minTrains : List (String × Int)) (r : Row) :
    Option Rat :=
  project nanPadding (M (keyOf r) 0)
    (offsetOf p minTrains (keyOf r) (r.ts.map (convertTs intTime)))

/-- Mutable state of a `DeepArPrimitive` instance.  `intTime` and `grouped`
record the resolved column roles (whether the timestamp column carries the
Integer semantic type and whether grouping columns exist); `horizon`,
`quantiles` and `nanPadding` are hyperparameters, fixed at construction.
`dataset` stands for `_deepar_dataset` being assigned; `allPreds` is the
`(_all_preds, _pred_intervals)` cache. -/
structure PState where
  intTime : Bool
  grouped : Bool
  horizon : Nat
  quantiles : List Rat
  nanPadding : Bool
  freq : Option String
  reindFreq : Option String
  isFit : Bool
  minTrainsU : Option Int
  minTrainsG : List (String × Int)
  dataset : Bool
  allPreds : Option (List (List (List Rat)) × List (List Int))
deriving DecidableEq, Repr

/-- `DeepArPrimitive.__init__`: `_freq = None`, `_is_fit = False`,
`_all_preds = None`. -/
def initState (intTime grouped : Bool) (horizon : Nat) (quantiles : List Rat)
    (nanPadding : Bool) : PState :=
  ⟨intTime, grouped, horizon, quantiles, nanPadding,
   none, none, false, none, [], false, none⟩

/-- State effect of `_sort_by_timestamp`: under the Integer semantic type the
frequency and reindex frequency are unconditionally assigned `"D"`; otherwise
the frequencies are untouched. -/
def freqEffect (s : PState) : PState :=
  if s.intTime then { s with freq := some "D", reindFreq := some "D" } else s

/-- `DeepArPrimitive._sort_by_timestamp`: convert the timestamp column, set
the frequencies in the Integer branch, and sort by the timestamp column. -/
def sort_by_timestamp (s : PState) (frame : List Row) : PState × List Row :=
  (freqEffect s, List.insertionSort rowLE (convertFrame s.intTime frame))

/-- `DeepArPrimitive._set_freq`: only when `_freq is None`, take the
difference of the first two timestamps (of the first group, or of the whole
frame when ungrouped — raw, unconverted and unsorted values) and classify it.
Fewer than two rows raise (`iloc[1]` IndexError); missing raw timestamps
cannot be classified. -/
def set_freq (s : PState) (frame : List Row) : Except String PState :=
  if s.grouped then
    if s.freq = none then
      match (partitionByGrp frame).head? with
      | some gp =>
          match gp.2[0]?, gp.2[1]? with
          | some r0, some r1 =>
              match r0.ts, r1.ts with
              | some a, some b =>
                  let fr := calculate_time_frequency (b - a)
                  Except.ok { s with freq := some fr.1, reindFreq := some fr.2 }
              | _, _ => Except.error "cannot infer frequency"
          | _, _ => Except.error "IndexError"
      | none => Except.error "IndexError"
    else Except.ok s
  else
    if s.freq = none then
      match frame[0]?, frame[1]? with
      | some r0, some r1 =>
          match r0.ts, r1.ts with
          | some a, some b =>
              let fr := calculate_time_frequency (b - a)
              Except.ok { s with freq := some fr.1, reindFreq := some fr.2 }
          | _, _ => Except.error "cannot infer frequency"
      | _, _ => Except.error "IndexError"
    else Except.ok s

/-- Aggregates computed by `DeepArPrimitive._reindex`. -/
structure ReindexResult where
  minTrainsU : Option Int
  minTrainsG : List (String × Int)
  maxTrainLength : Nat
  origTimesU : List (Option Int)
  origTimesG : List (String × List (Option Int))
deriving DecidableEq, Repr

/-- `df.index[0]` of a regularized partition: errors on an empty frame
(IndexError) and on an all-missing-timestamp frame, where pandas would store
NaT as the train start (reachable only from degenerate training data). -/
def trainStartOf (out : RegOut) : Except String Int :=
  match out.index.head? with
  | none => Except.error "IndexError"
  | some none => Except.error "train start is NaT"
  | some (some t) => Except.ok t

/-- Fail-fast map over a fallible step, as a Python for-loop that may raise:
the first error aborts the whole computation. -/
def mapE {α β : Type} (f : α → Except String β) : List α → Except String (List β)
  | [] => Except.ok []
  | x :: t =>
      match f x with
      | Except.error e => Except.error e
      | Except.ok y =>
          match mapE f t with
          | Except.error e => Except.error e
          | Except.ok ys => Except.ok (y :: ys)

/-- One grouped iteration of `DeepArPrimitive._reindex`: regularize the
partition and read off its train start. -/
def reindexPart (p : Int) (intTime : Bool) (gp : String × List Row) :
    Except String (String × RegOut × Int) :=
  match regularizeSorted p (List.insertionSort rowLE (convertFrame intTime gp.2)) with
  | Except.error e => Except.error e
  | Except.ok out =>
      match trainStartOf out with
      | Except.error e => Except.error e
      | Except.ok t0 => Except.ok (gp.1, out, t0)

/-- `DeepArPrimitive._reindex`: regularize the whole frame (ungrouped) or
every group partition in first-encountered order, collecting per-group train
starts, the longest regularized length and the original timestamps.
A grouped empty frame raises in `pd.concat`. -/
def reindex (s : PState) (frame : List Row) :
    PState × Except String ReindexResult :=
  if s.grouped then
    match frame with
    | [] => (s, Except.error "ValueError: no objects to concatenate")
    | _ =>
        let s1 := freqEffect s
        let p := periodOf (s1.reindFreq.getD "S")
        (s1,
          match mapE (reindexPart p s.intTime) (partitionByGrp frame) with
          | Except.error e => Except.error e
          | Except.ok parts =>
              Except.ok
                { minTrainsU := none,
                  minTrainsG := parts.map (fun x => (x.1, x.2.2)),
                  maxTrainLength :=
                    (parts.map (fun x => x.2.1.rows.length)).foldr max 0,
                  origTimesU := [],
                  origTimesG := parts.map (fun x => (x.1, x.2.1.originalTimes)) })
  else
    let s1 := freqEffect s
    let p := periodOf (s1.reindFreq.getD "S")
    (s1,
      match regularizeSorted p
          (List.insertionSort rowLE (convertFrame s.intTime frame)) with
      | Except.error e => Except.error e
      | Except.ok out =>
          match trainStartOf out with
          | Except.error e => Except.error e
          | Except.ok t0 =>
              Except.ok
                { minTrainsU := some t0,
                  minTrainsG := [],
                  maxTrainLength := out.rows.length,
                  origTimesU := out.originalTimes,
                  origTimesG := [] })

/-- `DeepArPrimitive._check_window_support`: fatal when the longest
regularized training series is shorter than the configured prediction
length. -/
def check_window_support (maxTrainLength horizon : Nat) : Except String Unit :=
  if maxTrainLength < horizon then
    Except.error "prediction length exceeds longest training series"
  else Except.ok ()

/-- `DeepArPrimitive.set_training_data`: infer the frequency, regularize and
record the per-group train starts, then validate the horizon; only then is the
dataset built.  Python mutates `self` field by field before a later step can
raise, so the partially updated state is returned together with the error. -/
def set_training_data (s : PState) (frame : List Row) : PState × Option String :=
  match set_freq s frame with
  | Except.error e => (s, some e)
  | Except.ok s1 =>
      match reindex s1 frame with
      | (s2, Except.error e) => (s2, some e)
      | (s2, Except.ok rr) =>
          match check_window_support rr.maxTrainLength s2.horizon with
          | Except.error e =>
              ({ s2 with minTrainsU := rr.minTrainsU, minTrainsG := rr.minTrainsG }, some e)
          | Except.ok _ =>
              ({ s2 with minTrainsU := rr.minTrainsU, minTrainsG := rr.minTrainsG, dataset := true }, none)

/-- `DeepArPrimitive.fit`: trains the external estimator from the dataset
built by `set_training_data` (absent dataset: AttributeError) and sets
`_is_fit = True`.  The cached `_all_preds` is not touched. -/
def fit (s : PState) : Except String PState :=
  if s.dataset then Except.ok { s with isFit := true } else
    Except.error "AttributeError"

/-- `DeepArPrimitive._produce`: not-fitted check, regularization of the query
frame (its train starts are discarded), offset computation against the fitted
`min_trains` under the canonical frequency, and the external forecast (the
opaque trained model `M`). -/
def produce_internal (M : String → Nat → List Rat) (s : PState)
    (inputs : List Row) :
    Except String (PState × (List (List (List Rat)) × List (List Int))) :=
  if s.isFit = false then Except.error "Primitive not fitted."
  else
    match reindex s inputs with
    | (_, Except.error e) => Except.error e
    | (s1, Except.ok rr) =>
        let p := periodOf (s1.freq.getD "S")
        let intervals :=
          if s.grouped then get_pred_intervals p s1.minTrainsG rr.origTimesG
          else [get_pred_intervals_ungrouped p (s1.minTrainsU.getD 0) rr.origTimesU]
        let groups := if s.grouped then rr.origTimesG.map (fun x => x.1) else [""]
        Except.ok (s1, (predsOf M s.quantiles.length groups, intervals))

/-- `DeepArPrimitive.produce`: when `_all_preds` is already cached the
internal produce is skipped entirely — whatever the new inputs are — and the
cached arrays and offsets are re-assembled; otherwise the cache is filled. -/
def produce (M : String → Nat → List Rat) (s : PState) (inputs : List Row) :
    Except String (PState × List (Option Rat)) :=
  match s.allPreds with
  | some c => Except.ok (s, pointEstimates s.nanPadding c.1 c.2)
  | none =>
      match produce_internal M s inputs with
      | Except.error e => Except.error e
      | Except.ok (s1, c) =>
          Except.ok ({ s1 with allPreds := some c },
            pointEstimates s.nanPadding c.1 c.2)

/-- `DeepArPrimitive.produce_confidence_intervals`: same cache discipline as
`produce`; the result columns are keyed `(0.5,) + quantiles` in a Python
dict. -/
def produce_confidence_intervals (M : String → Nat → List Rat) (s : PState)
    (inputs : List Row) :
    Except String (PState × List (Rat × List (Option Rat))) :=
  match s.allPreds with
  | some c => Except.ok (s, ciColumns s.nanPadding s.quantiles c.1 c.2)
  | none =>
      match produce_internal M s inputs with
      | Except.error e => Except.error e
      | Except.ok (s1, c) =>
          Except.ok ({ s1 with allPreds := some c },
            ciColumns s.nanPadding s.quantiles c.1 c.2)

/-- States reachable through the primitive's public interface. -/
inductive Reachable : PState → Prop where
  | init : ∀ intTime grouped horizon quantiles nanPadding,
      Reachable (initState intTime grouped horizon quantiles nanPadding)
  | setTrain : ∀ s frame, Reachable s →
      Reachable (set_training_data s frame).1
  | fitStep : ∀ s s', Reachable s → fit s = Except.ok s' → Reachable s'
  | produceStep : ∀ M s inputs s' out, Reachable s →
      produce M s inputs = Except.ok (s', out) → Reachable s'
  | produceCIStep : ∀ M s inputs s' out, Reachable s →
      produce_confidence_intervals M s inputs = Except.ok (s', out) →
      Reachable s'

/-- The prediction that belongs to one query row of an ungrouped frame. -/
def rowValueU (M : String → Nat → List Rat) (nanPadding intTime : Bool)
    (p mt : Int) (r : Row) : Option Rat :=
  project nanPadding (M "" 0) (discretizeO (r.ts.map (convertTs intTime)) mt p + 1)

/-- A concrete trained model: statistic arrays shared by all groups. -/
def Mfix : String → Nat → List Rat :=
  fun _ j => [[10, 20, 30], [1, 2, 3], [7, 8, 9]].getD j []

/-- A row carrying only a timestamp. -/
def rowAt (t : Int) : Row := ⟨none, some t, none, none, none⟩

/-- A row carrying a group key and a timestamp. -/
def growAt (g : String) (t : Int) : Row := ⟨some g, some t, none, none, none⟩

/-- A fitted, ungrouped, epoch-seconds instance with daily frequency,
horizon 3, no quantiles, nan padding, train start at the epoch. -/
def sFitU : PState :=
  ⟨false, false, 3, [], true, some "D", some "D", true, some 0, [], true, none⟩

/-- `sFitU` after a first produce call on `[rowAt 0]` filled the cache. -/
def s1fix : PState :=
  { sFitU with allPreds := some ([[[10, 20, 30]]], [[1]]) }

/-- A fitted, grouped instance that has seen only group `"A"` in training. -/
def sFitG : PState :=
  ⟨false, true, 3, [], true, some "D", some "D", true, none, [("A", 0)], true, none⟩

/-- A fitted, ungrouped instance whose timestamp column carries the Integer
semantic type. -/
def sFitI : PState :=
  ⟨true, false, 3, [], true, some "D", some "D", true, some 0, [], true, none⟩

/-- Invariant tying the lifecycle flags together: a filled prediction cache
implies fitted, fitted implies a built dataset, and a built dataset under the
Integer timestamp type implies the forced daily frequencies. -/
def StateInv (s : PState) : Prop :=
  (s.allPreds ≠ none → s.isFit = true) ∧
  (s.isFit = true → s.dataset = true) ∧
  (s.dataset = true → s.intTime = true →
    s.freq = some "D" ∧ s.reindFreq = some "D")

/-- A fresh ungrouped epoch-seconds instance with horizon 2. -/
def sTrain0 : PState := initState false false 2 [] true

/-- A two-observation daily training frame. -/
def frameTrain : List Row := [rowAt 0, rowAt 86400]

/-- The state after `set_training_data` on `sTrain0`. -/
def sTrained : PState := (set_training_data sTrain0 frameTrain).1

/-- The state after a successful `fit` on `sTrained`. -/
def sFitted : PState := { sTrained with isFit := true }

/-- The state after a first produce call on `sFitted`. -/
def sProd : PState :=
  { sFitted with allPreds := some ([[[10, 20, 30]]], [[1]]) }

end DeepAr

namespace DeepAr

theorem freqEffect_fields (s : PState) :
    (freqEffect s).intTime = s.intTime ∧ (freqEffect s).grouped = s.grouped ∧
    (freqEffect s).horizon = s.horizon ∧
    (freqEffect s).quantiles = s.quantiles ∧
    (freqEffect s).nanPadding = s.nanPadding ∧
    (freqEffect s).isFit = s.isFit ∧
    (freqEffect s).minTrainsU = s.minTrainsU ∧
    (freqEffect s).minTrainsG = s.minTrainsG ∧
    (freqEffect s).dataset = s.dataset ∧
    (freqEffect s).allPreds = s.allPreds := by
  unfold freqEffect
  split <;> simp

theorem freqEffect_freq_of_intTime (s : PState) (h : s.intTime = true) :
    (freqEffect s).freq = some "D" ∧ (freqEffect s).reindFreq = some "D" := by
  simp [freqEffect, h]

theorem freqEffect_of_not_intTime (s : PState) (h : s.intTime = false) :
    freqEffect s = s := by
  simp [freqEffect, h]

theorem set_freq_ok_fields (s : PState) (frame : List Row) (s1 : PState)
    (h : set_freq s frame = Except.ok s1) :
    s1.intTime = s.intTime ∧ s1.grouped = s.grouped ∧ s1.horizon = s.horizon ∧
    s1.quantiles = s.quantiles ∧ s1.nanPadding = s.nanPadding ∧
    s1.isFit = s.isFit ∧ s1.minTrainsU = s.minTrainsU ∧
    s1.minTrainsG = s.minTrainsG ∧ s1.dataset = s.dataset ∧
    s1.allPreds = s.allPreds := by
  unfold set_freq at h
  repeat' split at h
  all_goals simp_all
  all_goals (cases h; simp)

theorem set_freq_of_some (s : PState) (frame : List Row) (f : String)
    (h : s.freq = some f) : set_freq s frame = Except.ok s := by
  have hn : ¬ s.freq = none := by rw [h]; simp
  unfold set_freq
  split <;> simp [hn]

theorem reindex_fst_cases (s : PState) (frame : List Row) :
    (reindex s frame).1 = s ∨ (reindex s frame).1 = freqEffect s := by
  unfold reindex
  cases hg : s.grouped with
  | false => right; simp
  | true =>
      cases frame with
      | nil => left; simp
      | cons a t => right; simp

theorem reindex_fst_of_ok (s : PState) (frame : List Row) (s2 : PState)
    (res : Except String ReindexResult) (rr : ReindexResult)
    (h : reindex s frame = (s2, res)) (hok : res = Except.ok rr) :
    s2 = freqEffect s := by
  subst hok
  unfold reindex at h
  cases hg : s.grouped with
  | false => rw [hg] at h; simp at h; exact h.1.symm
  | true =>
      rw [hg] at h
      cases frame with
      | nil => simp at h
      | cons a t => simp at h; exact h.1.symm

theorem produce_internal_ok_state (M : String → Nat → List Rat) (s : PState)
    (inputs : List Row) (s1 : PState)
    (c : List (List (List Rat)) × List (List Int))
    (h : produce_internal M s inputs = Except.ok (s1, c)) :
    s.isFit = true ∧ s1 = freqEffect s := by
  unfold produce_internal at h
  by_cases hf : s.isFit = false
  · simp [hf] at h
  · rw [if_neg hf] at h
    rcases hr : reindex s inputs with ⟨a, b⟩
    rw [hr] at h
    cases b with
    | error e => simp at h
    | ok rr =>
        simp only [Except.ok.injEq, Prod.mk.injEq] at h
        refine ⟨by simpa using hf, ?_⟩
        rw [← h.1]
        exact reindex_fst_of_ok s inputs a _ rr hr rfl

theorem produce_ok_state (M : String → Nat → List Rat) (s : PState)
    (inputs : List Row) (s' : PState) (out : List (Option Rat))
    (h : produce M s inputs = Except.ok (s', out)) :
    (s' = s ∧ s.allPreds ≠ none) ∨
    (s.allPreds = none ∧ s.isFit = true ∧
      ∃ c, s' = { freqEffect s with allPreds := some c }) := by
  unfold produce at h
  cases hap : s.allPreds with
  | some c =>
      left
      rw [hap] at h
      simp only [Except.ok.injEq, Prod.mk.injEq] at h
      exact ⟨h.1.symm, by simp [hap]⟩
  | none =>
      right
      rw [hap] at h
      rcases hpi : produce_internal M s inputs with e | sc
      · rw [hpi] at h; simp at h
      · rw [hpi] at h
        rcases sc with ⟨s1, c⟩
        simp only [Except.ok.injEq, Prod.mk.injEq] at h
        have hst := produce_internal_ok_state M s inputs s1 c hpi
        exact ⟨rfl, hst.1, c, by rw [← h.1, hst.2]⟩

theorem produce_ci_ok_state (M : String → Nat → List Rat) (s : PState)
    (inputs : List Row) (s' : PState) (out : List (Rat × List (Option Rat)))
    (h : produce_confidence_intervals M s inputs = Except.ok (s', out)) :
    (s' = s ∧ s.allPreds ≠ none) ∨
    (s.allPreds = none ∧ s.isFit = true ∧
      ∃ c, s' = { freqEffect s with allPreds := some c }) := by
  unfold produce_confidence_intervals at h
  cases hap : s.allPreds with
  | some c =>
      left
      rw [hap] at h
      simp only [Except.ok.injEq, Prod.mk.injEq] at h
      exact ⟨h.1.symm, by simp [hap]⟩
  | none =>
      right
      rw [hap] at h
      rcases hpi : produce_internal M s inputs with e | sc
      · rw [hpi] at h; simp at h
      · rw [hpi] at h
        rcases sc with ⟨s1, c⟩
        simp only [Except.ok.injEq, Prod.mk.injEq] at h
        have hst := produce_internal_ok_state M s inputs s1 c hpi
        exact ⟨rfl, hst.1, c, by rw [← h.1, hst.2]⟩

theorem StateInv_freqEffect (s : PState) (h : StateInv s) :
    StateInv (freqEffect s) := by
  obtain ⟨hf1, hf2, hf3, hf4, hf5, hf6, hf7, hf8, hf9, hf10⟩ := freqEffect_fields s
  refine ⟨?_, ?_, ?_⟩
  · rw [hf10, hf6]; exact h.1
  · rw [hf6, hf9]; exact h.2.1
  · intro hd hi
    rw [hf1] at hi
    exact freqEffect_freq_of_intTime s hi

theorem StateInv_mk_minTrains (s : PState) (u : Option Int)
    (g : List (String × Int)) (h : StateInv s) :
    StateInv { s with minTrainsU := u, minTrainsG := g } := by
  exact ⟨h.1, h.2.1, h.2.2⟩

theorem set_training_data_inv (s : PState) (frame : List Row)
    (h : StateInv s) : StateInv (set_training_data s frame).1 := by
  have hfromfreq : ∀ s1, set_freq s frame = Except.ok s1 → StateInv s1 := by
    intro s1 hsf
    obtain ⟨hg1, hg2, hg3, hg4, hg5, hg6, hg7, hg8, hg9, hg10⟩ :=
      set_freq_ok_fields s frame s1 hsf
    refine ⟨by rw [hg10, hg6]; exact h.1, by rw [hg6, hg9]; exact h.2.1, ?_⟩
    intro hd hi
    rw [hg9] at hd; rw [hg1] at hi
    have hfq := (h.2.2 hd hi).1
    have hseq : set_freq s frame = Except.ok s := set_freq_of_some s frame "D" hfq
    rw [hsf] at hseq
    have hss : s1 = s := by injection hseq
    rw [hss]
    exact h.2.2 hd hi
  have hfromreindex : ∀ s1 s2 res, StateInv s1 → reindex s1 frame = (s2, res) →
      StateInv s2 := by
    intro s1 s2 res hs1 hrx
    rcases reindex_fst_cases s1 frame with hc | hc <;> rw [hrx] at hc <;>
      simp only at hc
    · rw [hc]; exact hs1
    · rw [hc]; exact StateInv_freqEffect s1 hs1
  unfold set_training_data
  split
  · exact h
  · next s1 hsf =>
      have hs1 := hfromfreq s1 hsf
      split
      · next s2 e hrx => exact hfromreindex s1 s2 _ hs1 hrx
      · next s2 rr hrx =>
          have hs2 := hfromreindex s1 s2 _ hs1 hrx
          split
          · exact StateInv_mk_minTrains s2 rr.minTrainsU rr.minTrainsG hs2
          · have hs2f : s2 = freqEffect s1 :=
              reindex_fst_of_ok s1 frame s2 _ rr hrx rfl
            refine ⟨fun hne => hs2.1 ?_, fun _ => rfl, fun _ hi => ?_⟩
            · exact hne
            · have hi2 : s2.intTime = true := hi
              show s2.freq = some "D" ∧ s2.reindFreq = some "D"
              rw [hs2f] at hi2 ⊢
              have hit : s1.intTime = true := by
                rw [(freqEffect_fields s1).1] at hi2; exact hi2
              exact freqEffect_freq_of_intTime s1 hit

theorem reachable_inv (s : PState) (h : Reachable s) : StateInv s := by
  induction h with
  | init intTime grouped horizon quantiles nanPadding =>
      refine ⟨?_, ?_, ?_⟩ <;> simp [initState]
  | setTrain s frame hr ih => exact set_training_data_inv s frame ih
  | fitStep s s' hr hfit ih =>
      unfold fit at hfit
      by_cases hd : s.dataset = true
      · rw [if_pos hd] at hfit
        have : s' = { s with isFit := true } := by
          injection hfit with hh; exact hh.symm
        rw [this]
        exact ⟨fun _ => rfl, fun _ => hd, ih.2.2⟩
      · rw [if_neg hd] at hfit; cases hfit
  | produceStep M s inputs s' out hr hok ih =>
      rcases produce_ok_state M s inputs s' out hok with ⟨heq, _⟩ | ⟨hap, hfit, c, heq⟩
      · rw [heq]; exact ih
      · rw [heq]
        obtain ⟨hf1, hf2, hf3, hf4, hf5, hf6, hf7, hf8, hf9, hf10⟩ :=
          freqEffect_fields s
        refine ⟨fun _ => by rw [hf6]; exact hfit, ?_, ?_⟩
        · intro _; rw [hf9]; exact ih.2.1 hfit
        · intro hd hi
          rw [hf1] at hi
          exact freqEffect_freq_of_intTime s hi
  | produceCIStep M s inputs s' out hr hok ih =>
      rcases produce_ci_ok_state M s inputs s' out hok with ⟨heq, _⟩ | ⟨hap, hfit, c, heq⟩
      · rw [heq]; exact ih
      · rw [heq]
        obtain ⟨hf1, hf2, hf3, hf4, hf5, hf6, hf7, hf8, hf9, hf10⟩ :=
          freqEffect_fields s
        refine ⟨fun _ => by rw [hf6]; exact hfit, ?_, ?_⟩
        · intro _; rw [hf9]; exact ih.2.1 hfit
        · intro hd hi
          rw [hf1] at hi
          exact freqEffect_freq_of_intTime s hi

theorem set_training_data_eq_of (s : PState) (frame : List Row) (s1 s2 : PState)
    (rr : ReindexResult) (hsf : set_freq s frame = Except.ok s1)
    (hrx : reindex s1 frame = (s2, Except.ok rr)) :
    set_training_data s frame =
      match check_window_support rr.maxTrainLength s2.horizon with
      | Except.error e =>
          ({ s2 with minTrainsU := rr.minTrainsU, minTrainsG := rr.minTrainsG },
           some e)
      | Except.ok _ =>
          ({ s2 with minTrainsU := rr.minTrainsU, minTrainsG := rr.minTrainsG, dataset := true }, none) := by
  unfold set_training_data
  split
  · next e h => rw [hsf] at h; cases h
  · next s1' h =>
      rw [hsf] at h
      have hh : s1 = s1' := by injection h
      subst hh
      split
      · next s2' e h2 =>
          rw [hrx] at h2
          have := congrArg Prod.snd h2
          simp at this
      · next s2' rr' h2 =>
          rw [hrx] at h2
          have h2a : s2 = s2' := congrArg Prod.fst h2
          have h2b : rr = rr' := by
            have := congrArg Prod.snd h2
            simp only at this
            injection this
          subst h2a; subst h2b
          rfl

/-- C5.  A produce or confidence-interval call on a reachable state that is
not fitted (any state the public interface can reach before a successful fit)
fails with the not-fitted error and returns no prediction. -/
theorem C5_produce_not_fitted :
    ∀ (M : String → Nat → List Rat) (s : PState) (inputs : List Row),
      Reachable s → s.isFit = false →
      produce M s inputs = Except.error "Primitive not fitted." ∧
      produce_confidence_intervals M s inputs =
        Except.error "Primitive not fitted." := by
  intro M s inputs hr hf
  have hinv := reachable_inv s hr
  have hap : s.allPreds = none := by
    rcases hap : s.allPreds with _ | c
    · rfl
    · have hft := hinv.1 (by rw [hap]; simp)
      rw [hft] at hf; cases hf
  have hint : produce_internal M s inputs =
      Except.error "Primitive not fitted." := by
    unfold produce_internal; rw [if_pos hf]
  constructor
  · unfold produce; rw [hap, hint]
  · unfold produce_confidence_intervals; rw [hap, hint]

/-- C5 witness: a freshly constructed primitive rejects produce and
produce_confidence_intervals. -/
theorem C5_produce_not_fitted_witness :
    produce Mfix (initState false false 3 [] true) [rowAt 0] =
      Except.error "Primitive not fitted." ∧
    produce_confidence_intervals Mfix (initState false false 3 [] true)
        [rowAt 0] = Except.error "Primitive not fitted." :=
  C5_produce_not_fitted Mfix (initState false false 3 [] true) [rowAt 0]
    (Reachable.init false false 3 [] true) rfl

/-- C6.  `_check_window_support` passes exactly when the configured horizon is
at most the longest regularized training length, and `set_training_data`
(where the check runs, between regularization and dataset construction)
reports the configuration error and leaves the instance unfitted with no
dataset built when the check fails, while the dataset is built when it
passes. -/
theorem C6_horizon_check :
    (∀ (m hz : Nat), check_window_support m hz = Except.ok () ↔ hz ≤ m) ∧
    (∀ (s : PState) (frame : List Row) (s1 s2 : PState) (rr : ReindexResult),
      set_freq s frame = Except.ok s1 →
      reindex s1 frame = (s2, Except.ok rr) →
      (rr.maxTrainLength < s.horizon →
        (set_training_data s frame).2 =
          some "prediction length exceeds longest training series" ∧
        ((set_training_data s frame).1).dataset = s.dataset ∧
        ((set_training_data s frame).1).isFit = s.isFit) ∧
      (s.horizon ≤ rr.maxTrainLength →
        (set_training_data s frame).2 = none ∧
        ((set_training_data s frame).1).dataset = true ∧
        ((set_training_data s frame).1).isFit = s.isFit)) := by
  constructor
  · intro m hz
    unfold check_window_support
    split <;> simp <;> omega
  · intro s frame s1 s2 rr hsf hrx
    obtain ⟨hg1, hg2, hg3, hg4, hg5, hg6, hg7, hg8, hg9, hg10⟩ :=
      set_freq_ok_fields s frame s1 hsf
    have hs2f : s2 = freqEffect s1 := reindex_fst_of_ok s1 frame s2 _ rr hrx rfl
    obtain ⟨he1, he2, he3, he4, he5, he6, he7, he8, he9, he10⟩ :=
      freqEffect_fields s1
    have hhz : s2.horizon = s.horizon := by rw [hs2f, he3, hg3]
    have hds : s2.dataset = s.dataset := by rw [hs2f, he9, hg9]
    have hfi : s2.isFit = s.isFit := by rw [hs2f, he6, hg6]
    have heq := set_training_data_eq_of s frame s1 s2 rr hsf hrx
    constructor
    · intro hlt
      have hc : check_window_support rr.maxTrainLength s2.horizon =
          Except.error "prediction length exceeds longest training series" := by
        unfold check_window_support
        rw [if_pos (by rw [hhz]; exact hlt)]
      rw [hc] at heq
      rw [heq]
      exact ⟨rfl, hds, hfi⟩
    · intro hge
      have hc : check_window_support rr.maxTrainLength s2.horizon =
          Except.ok () := by
        unfold check_window_support
        rw [if_neg (by rw [hhz]; omega)]
      rw [hc] at heq
      rw [heq]
      exact ⟨rfl, rfl, hfi⟩

/-- C6 witness: two daily observations (longest series 2); with horizon 5 the
fit fails as a configuration error with no dataset built, with horizon 2 it
passes and the dataset is built. -/
theorem C6_horizon_check_witness :
    ((set_training_data (initState false false 5 [] true) frameTrain).2 =
      some "prediction length exceeds longest training series" ∧
      ((set_training_data (initState false false 5 [] true) frameTrain).1).dataset =
        (initState false false 5 [] true).dataset ∧
      ((set_training_data (initState false false 5 [] true) frameTrain).1).isFit =
        (initState false false 5 [] true).isFit) ∧
    ((set_training_data sTrain0 frameTrain).2 = none ∧
      ((set_training_data sTrain0 frameTrain).1).dataset = true ∧
      ((set_training_data sTrain0 frameTrain).1).isFit = sTrain0.isFit) := by
  constructor
  · exact (C6_horizon_check.2 (initState false false 5 [] true) frameTrain
      ((set_freq (initState false false 5 [] true) frameTrain).toOption.getD
        (initState false false 5 [] true))
      ((reindex ((set_freq (initState false false 5 [] true) frameTrain).toOption.getD
        (initState false false 5 [] true)) frameTrain).1)
      (((reindex ((set_freq (initState false false 5 [] true) frameTrain).toOption.getD
        (initState false false 5 [] true)) frameTrain).2).toOption.getD
        ⟨none, [], 0, [], []⟩)
      rfl rfl).1 (by decide)
  · exact (C6_horizon_check.2 sTrain0 frameTrain
      ((set_freq sTrain0 frameTrain).toOption.getD sTrain0)
      ((reindex ((set_freq sTrain0 frameTrain).toOption.getD sTrain0) frameTrain).1)
      (((reindex ((set_freq sTrain0 frameTrain).toOption.getD sTrain0)
        frameTrain).2).toOption.getD ⟨none, [], 0, [], []⟩)
      rfl rfl).2 (by decide)

/-- C7.  `_set_freq` never recomputes an already-set frequency (the `None`
guard), and once an instance is fitted, a successful produce call leaves both
the canonical and the reindex frequency unchanged — also under the Integer
timestamp type, where the produce-time reassignment writes the same `"D"`
the fitted state already carries. -/
theorem C7_freq_inferred_once :
    (∀ (s : PState) (frame : List Row) (f : String), s.freq = some f →
      set_freq s frame = Except.ok s) ∧
    (∀ (M : String → Nat → List Rat) (s : PState) (inputs : List Row)
        (s' : PState) (out : List (Option Rat)),
      Reachable s → s.isFit = true → produce M s inputs = Except.ok (s', out) →
      s'.freq = s.freq ∧ s'.reindFreq = s.reindFreq) := by
  constructor
  · exact fun s frame f h => set_freq_of_some s frame f h
  · intro M s inputs s' out hr hf hok
    rcases produce_ok_state M s inputs s' out hok with ⟨heq, _⟩ | ⟨hap, hfit, c, heq⟩
    · rw [heq]; exact ⟨rfl, rfl⟩
    · rw [heq]
      show (freqEffect s).freq = s.freq ∧ (freqEffect s).reindFreq = s.reindFreq
      by_cases hi : s.intTime = true
      · have hD := freqEffect_freq_of_intTime s hi
        have hinv := reachable_inv s hr
        have hsD := hinv.2.2 (hinv.2.1 hf) hi
        rw [hD.1, hD.2, hsD.1, hsD.2]
        exact ⟨rfl, rfl⟩
      · have hi2 : s.intTime = false := by simpa using hi
        rw [freqEffect_of_not_intTime s hi2]
        exact ⟨rfl, rfl⟩

/-- C7 witness: a fitted instance reached through the public interface; its
frequency survives a produce call, and `_set_freq` is a no-op on it. -/
theorem C7_freq_inferred_once_witness :
    set_freq sFitU [rowAt 0] = Except.ok sFitU ∧
    (sProd.freq = sFitted.freq ∧ sProd.reindFreq = sFitted.reindFreq) := by
  constructor
  · exact C7_freq_inferred_once.1 sFitU [rowAt 0] "D" rfl
  · exact C7_freq_inferred_once.2 Mfix sFitted [rowAt 0] sProd [some 10]
      (Reachable.fitStep sTrained sFitted
        (Reachable.setTrain sTrain0 frameTrain
          (Reachable.init false false 2 [] true)) rfl)
      rfl rfl

theorem mapE_ok_mem {α β : Type} (f : α → Except String β) :
    ∀ (l : List α) (ys : List β), mapE f l = Except.ok ys →
      ∀ x ∈ l, ∃ y, f x = Except.ok y := by
  intro l
  induction l with
  | nil => intro ys h x hx; cases hx
  | cons a t ih =>
      intro ys h x hx
      unfold mapE at h
      cases hfa : f a with
      | error e => rw [hfa] at h; cases h
      | ok y =>
          rw [hfa] at h
          cases hmt : mapE f t with
          | error e => rw [hmt] at h; cases h
          | ok ys2 =>
              rcases List.mem_cons.mp hx with hxa | hxt
              · exact ⟨y, by rw [hxa]; exact hfa⟩
              · exact ih ys2 hmt x hxt

theorem mapE_ok_eq_map {α β : Type} (f : α → Except String β) (dflt : β) :
    ∀ (l : List α) (ys : List β), mapE f l = Except.ok ys →
      ys = l.map (fun x => (f x).toOption.getD dflt) := by
  intro l
  induction l with
  | nil => intro ys h; injection h with hh; rw [← hh]; rfl
  | cons a t ih =>
      intro ys h
      unfold mapE at h
      cases hfa : f a with
      | error e => rw [hfa] at h; cases h
      | ok y =>
          rw [hfa] at h
          cases hmt : mapE f t with
          | error e => rw [hmt] at h; cases h
          | ok ys2 =>
              rw [hmt] at h
              injection h with hh
              rw [← hh, List.map_cons, ih ys2 hmt, hfa]
              rfl

theorem regularizeSorted_ok_origTimes (p : Int) (sorted : List Row)
    (out : RegOut) (h : regularizeSorted p sorted = Except.ok out) :
    out.originalTimes = sorted.map (fun r => r.ts) := by
  unfold regularizeSorted at h
  dsimp only at h
  split at h
  · injection h with hh; rw [← hh]
  · split at h
    · injection h with hh; rw [← hh]
    · cases h

theorem reindexPart_ok (p : Int) (intT : Bool) (gp : String × List Row)
    (y : String × RegOut × Int) (h : reindexPart p intT gp = Except.ok y) :
    y.1 = gp.1 ∧ y.2.1.originalTimes = sortedTsOf intT gp.2 := by
  unfold reindexPart at h
  cases hreg : regularizeSorted p
      (List.insertionSort rowLE (convertFrame intT gp.2)) with
  | error e => rw [hreg] at h; cases h
  | ok out =>
      rw [hreg] at h
      dsimp only at h
      cases htr : trainStartOf out with
      | error e => rw [htr] at h; cases h
      | ok t0 =>
          rw [htr] at h
          injection h with hh
          rw [← hh]
          exact ⟨rfl, regularizeSorted_ok_origTimes p _ out hreg⟩

theorem reindex_grouped_ok_origTimes (s : PState) (frame : List Row)
    (rr : ReindexResult) (hg : s.grouped = true)
    (h : (reindex s frame).2 = Except.ok rr) :
    rr.origTimesG = origTimesOf s.intTime frame := by
  unfold reindex at h
  rw [hg] at h
  simp only [if_true] at h
  cases frame with
  | nil => simp at h
  | cons a t =>
      simp only at h
      cases hm : mapE
          (reindexPart (periodOf ((freqEffect s).reindFreq.getD "S")) s.intTime)
          (partitionByGrp (a :: t)) with
      | error e => rw [hm] at h; cases h
      | ok ys =>
          rw [hm] at h
          injection h with hh
          rw [← hh]
          show ys.map (fun x => (x.1, x.2.1.originalTimes)) =
            origTimesOf s.intTime (a :: t)
          rw [mapE_ok_eq_map _ (("", ⟨[], [], []⟩, 0)) _ ys hm, List.map_map]
          unfold origTimesOf
          apply List.map_congr_left
          intro gp hgp
          obtain ⟨y, hy⟩ := mapE_ok_mem _ _ ys hm gp hgp
          have hcomp := reindexPart_ok _ _ gp y hy
          simp only [Function.comp_apply, hy]
          show (y.1, y.2.1.originalTimes) = (gp.1, sortedTsOf s.intTime gp.2)
          rw [hcomp.1, hcomp.2]

theorem reindex_ungrouped_ok_origTimes (s : PState) (frame : List Row)
    (rr : ReindexResult) (hg : s.grouped = false)
    (h : (reindex s frame).2 = Except.ok rr) :
    rr.origTimesU = sortedTsOf s.intTime frame := by
  unfold reindex at h
  rw [hg] at h
  simp only [Bool.false_eq_true, if_false] at h
  cases hreg : regularizeSorted (periodOf ((freqEffect s).reindFreq.getD "S"))
      (List.insertionSort rowLE (convertFrame s.intTime frame)) with
  | error e => rw [hreg] at h; cases h
  | ok out =>
      rw [hreg] at h
      dsimp only at h
      cases htr : trainStartOf out with
      | error e => rw [htr] at h; cases h
      | ok t0 =>
          rw [htr] at h
          injection h with hh
          rw [← hh]
          exact regularizeSorted_ok_origTimes _ _ out hreg

theorem headD_predsRow (n : Nat) (f : Nat → List Rat) :
    ((List.range (1 + n)).map f).headD [] = f 0 := by
  rw [Nat.add_comm, List.range_succ_eq_map]
  rfl

theorem get_pred_intervals_eq (p : Int) (m : List (String × Int))
    (orig : List (String × List (Option Int))) :
    get_pred_intervals p m orig =
      orig.map (fun gt => gt.2.map (fun t => offsetOf p m gt.1 t)) := by
  unfold get_pred_intervals offsetOf
  apply List.map_congr_left
  intro gt _
  cases hlk : m.lookup gt.1 <;> simp [hlk, List.map_map, Function.comp]

theorem pointEstimates_maps {γ : Type} (nanP : Bool) (l : List γ)
    (F : γ → List (List Rat)) (G : γ → List Int) :
    pointEstimates nanP (l.map F) (l.map G) =
      (l.map (fun x => (G x).map (project nanP ((F x).headD [])))).flatten := by
  unfold pointEstimates
  rw [List.zip_map', List.map_map]
  rfl

theorem produce_internal_ok_pieces (M : String → Nat → List Rat) (s : PState)
    (inputs : List Row) (s1 : PState)
    (c : List (List (List Rat)) × List (List Int))
    (hok : produce_internal M s inputs = Except.ok (s1, c)) :
    ∃ rr, (reindex s inputs).2 = Except.ok rr ∧
      c.1 = predsOf M s.quantiles.length
        (if s.grouped = true then rr.origTimesG.map (fun x => x.1) else [""]) ∧
      c.2 = (if s.grouped = true then
          get_pred_intervals (periodOf ((freqEffect s).freq.getD "S"))
            s.minTrainsG rr.origTimesG
        else [get_pred_intervals_ungrouped
            (periodOf ((freqEffect s).freq.getD "S"))
            (s.minTrainsU.getD 0) rr.origTimesU]) := by
  have hfe := freqEffect_fields s
  unfold produce_internal at hok
  by_cases hf : s.isFit = false
  · simp [hf] at hok
  · rw [if_neg hf] at hok
    rcases hr : reindex s inputs with ⟨a, b⟩
    rw [hr] at hok
    cases b with
    | error e => cases hok
    | ok rr =>
        have ha : a = freqEffect s := reindex_fst_of_ok s inputs a _ rr hr rfl
        injection hok with hh
        have hc := congrArg Prod.snd hh
        simp only at hc
        refine ⟨rr, by simp [hr], ?_, ?_⟩
        · rw [← hc]
        · rw [← hc, ha, (freqEffect_fields s).2.2.2.2.2.2.2.1,
            (freqEffect_fields s).2.2.2.2.2.2.1]

theorem produce_internal_grouped_output (M : String → Nat → List Rat)
    (s : PState) (inputs : List Row) (s1 : PState)
    (c : List (List (List Rat)) × List (List Int)) (hg : s.grouped = true)
    (hok : produce_internal M s inputs = Except.ok (s1, c)) :
    pointEstimates s.nanPadding c.1 c.2 =
      ((partitionByGrp inputs).map (fun gp =>
        (sortedTsOf s.intTime gp.2).map (fun t =>
          project s.nanPadding (M gp.1 0)
            (offsetOf (periodOf ((freqEffect s).freq.getD "S"))
              s.minTrainsG gp.1 t)))).flatten := by
  obtain ⟨rr, hr2, hc1, hc2⟩ := produce_internal_ok_pieces M s inputs s1 c hok
  have horig : rr.origTimesG = origTimesOf s.intTime inputs :=
    reindex_grouped_ok_origTimes s inputs rr hg hr2
  rw [hc1, hc2]
  simp only [hg, if_true]
  rw [horig, get_pred_intervals_eq]
  unfold origTimesOf predsOf
  rw [List.map_map, List.map_map, List.map_map]
  rw [pointEstimates_maps]
  congr 1
  apply List.map_congr_left
  intro gp _
  simp only [Function.comp_apply]
  rw [headD_predsRow, List.map_map]
  rfl

theorem produce_internal_ungrouped_output (M : String → Nat → List Rat)
    (s : PState) (inputs : List Row) (s1 : PState)
    (c : List (List (List Rat)) × List (List Int)) (hg : s.grouped = false)
    (hok : produce_internal M s inputs = Except.ok (s1, c)) :
    pointEstimates s.nanPadding c.1 c.2 =
      (sortedTsOf s.intTime inputs).map (fun t =>
        project s.nanPadding (M "" 0)
          (discretizeO t (s.minTrainsU.getD 0)
            (periodOf ((freqEffect s).freq.getD "S")) + 1)) := by
  obtain ⟨rr, hr2, hc1, hc2⟩ := produce_internal_ok_pieces M s inputs s1 c hok
  have horig : rr.origTimesU = sortedTsOf s.intTime inputs :=
    reindex_ungrouped_ok_origTimes s inputs rr hg hr2
  rw [hc1, hc2]
  simp only [hg, Bool.false_eq_true, if_false]
  unfold pointEstimates predsOf get_pred_intervals_ungrouped
  simp only [List.map_cons, List.map_nil, List.zip_cons_cons, List.zip_nil_right,
    List.flatten]
  rw [List.append_nil, headD_predsRow, horig, List.map_map, List.map_map]
  rfl

theorem firstSeenGo_mem {α : Type} [DecidableEq α] :
    ∀ (l seen : List α) (x : α), x ∈ firstSeenGo seen l → x ∈ l := by
  intro l
  induction l with
  | nil => intro seen x h; cases h
  | cons a t ih =>
      intro seen x h
      unfold firstSeenGo at h
      by_cases ha : a ∈ seen
      · rw [if_pos ha] at h
        exact List.mem_cons_of_mem a (ih seen x h)
      · rw [if_neg ha] at h
        rcases List.mem_cons.mp h with h1 | h2
        · rw [h1]; exact List.mem_cons_self a t
        · exact List.mem_cons_of_mem a (ih _ x h2)

theorem firstSeen_mem {α : Type} [DecidableEq α] (l : List α) (x : α)
    (h : x ∈ firstSeen l) : x ∈ l :=
  firstSeenGo_mem l [] x h

theorem firstSeenGo_append {α : Type} [DecidableEq α] :
    ∀ (t s1 s2 : List α),
      firstSeenGo (s1 ++ s2) t =
        firstSeenGo s1 (t.filter (fun x => decide (¬ x ∈ s2))) := by
  intro t
  induction t with
  | nil => intro s1 s2; rfl
  | cons a t ih =>
      intro s1 s2
      by_cases h2 : a ∈ s2
      · have hf : (a :: t).filter (fun x => decide (¬ x ∈ s2)) =
            t.filter (fun x => decide (¬ x ∈ s2)) := by
          rw [List.filter_cons, if_neg (by simpa using h2)]
        rw [hf]
        have hmem : a ∈ s1 ++ s2 := List.mem_append_right _ h2
        show (if a ∈ s1 ++ s2 then firstSeenGo (s1 ++ s2) t
          else a :: firstSeenGo (a :: (s1 ++ s2)) t) = _
        rw [if_pos hmem]
        exact ih s1 s2
      · have hf : (a :: t).filter (fun x => decide (¬ x ∈ s2)) =
            a :: t.filter (fun x => decide (¬ x ∈ s2)) := by
          rw [List.filter_cons, if_pos (by simpa using h2)]
        rw [hf]
        by_cases h1 : a ∈ s1
        · have hmem : a ∈ s1 ++ s2 := List.mem_append_left _ h1
          show (if a ∈ s1 ++ s2 then firstSeenGo (s1 ++ s2) t
              else a :: firstSeenGo (a :: (s1 ++ s2)) t) =
            (if a ∈ s1 then firstSeenGo s1 (t.filter (fun x => decide (¬ x ∈ s2)))
              else a :: firstSeenGo (a :: s1) (t.filter (fun x => decide (¬ x ∈ s2))))
          rw [if_pos hmem, if_pos h1]
          exact ih s1 s2
        · have hmem : ¬ a ∈ s1 ++ s2 := by
            rw [List.mem_append]
            intro hc
            rcases hc with hc | hc
            · exact h1 hc
            · exact h2 hc
          show (if a ∈ s1 ++ s2 then firstSeenGo (s1 ++ s2) t
              else a :: firstSeenGo (a :: (s1 ++ s2)) t) =
            (if a ∈ s1 then firstSeenGo s1 (t.filter (fun x => decide (¬ x ∈ s2)))
              else a :: firstSeenGo (a :: s1) (t.filter (fun x => decide (¬ x ∈ s2))))
          rw [if_neg hmem, if_neg h1]
          congr 1
          have hassoc : a :: (s1 ++ s2) = (a :: s1) ++ s2 := rfl
          rw [hassoc]
          exact ih (a :: s1) s2

theorem firstSeen_cons {α : Type} [DecidableEq α] (a : α) (l : List α) :
    firstSeen (a :: l) = a :: firstSeen (l.filter (fun x => decide (¬ x = a))) := by
  have h := firstSeenGo_append l [] [a]
  rw [List.nil_append] at h
  have hstep : firstSeen (a :: l) = a :: firstSeenGo [a] l := by
    show (if a ∈ ([] : List α) then firstSeenGo [] l
      else a :: firstSeenGo [a] l) = _
    rw [if_neg (List.not_mem_nil a)]
  rw [hstep, h]
  have hfe : (l.filter (fun x => decide (¬ x ∈ [a]))) =
      (l.filter (fun x => decide (¬ x = a))) := by
    apply List.filter_congr
    intro x _
    simp
  unfold firstSeen
  rw [hfe]

theorem length_filter_partition (l : List Row) (p : Row → Bool) :
    (l.filter p).length + (l.filter (fun x => ! p x)).length = l.length := by
  induction l with
  | nil => rfl
  | cons a t ih =>
      by_cases h : p a = true <;>
        simp [List.filter_cons, h, Nat.succ_eq_add_one] <;> omega

theorem sum_partition_aux :
    ∀ (n : Nat) (l : List Row), l.length ≤ n →
      (((partitionByGrp l).map (fun gp => gp.2.length)).sum) = l.length := by
  intro n
  induction n with
  | zero =>
      intro l h
      have : l = [] := List.length_eq_zero.mp (Nat.le_zero.mp h)
      rw [this]
      rfl
  | succ n ih =>
      intro l hl
      cases l with
      | nil => rfl
      | cons r t =>
          unfold partitionByGrp
          rw [List.map_cons, firstSeen_cons, List.map_cons, List.map_cons,
            List.sum_cons]
          have hhead : (((r :: t).filter (fun x => decide (keyOf x = keyOf r)))).length
              = 1 + (t.filter (fun x => decide (keyOf x = keyOf r))).length := by
            rw [List.filter_cons]
            simp [Nat.add_comm]
          have hfilt : ((t.map keyOf).filter (fun x => decide (¬ x = keyOf r))) =
              (t.filter (fun x => decide (¬ keyOf x = keyOf r))).map keyOf := by
            rw [List.filter_map]
            rfl
          have htail : ((firstSeen ((t.map keyOf).filter
                (fun x => decide (¬ x = keyOf r)))).map
              (fun g => (g, (r :: t).filter (fun x => decide (keyOf x = g))))).map
                (fun gp => gp.2.length) =
              ((partitionByGrp (t.filter (fun x => decide (¬ keyOf x = keyOf r)))).map
                (fun gp => gp.2.length)) := by
            unfold partitionByGrp
            rw [hfilt, List.map_map, List.map_map]
            apply List.map_congr_left
            intro g hg
            have hgr : ¬ g = keyOf r := by
              have hg2 := firstSeen_mem _ g hg
              rcases List.mem_map.mp hg2 with ⟨x, hx1, hx2⟩
              have := (List.mem_filter.mp hx1).2
              simp only [decide_eq_true_eq] at this
              rw [← hx2]
              exact this
            simp only [Function.comp_apply]
            show ((r :: t).filter (fun x => decide (keyOf x = g))).length =
              ((t.filter (fun x => decide (¬ keyOf x = keyOf r))).filter
                (fun x => decide (keyOf x = g))).length
            rw [List.filter_cons]
            have hng : decide (keyOf r = g) = false := by
              simp only [decide_eq_false_iff_not]
              intro hc; exact hgr hc.symm
            rw [hng]
            rw [if_neg (by simp : ¬ (false = true))]
            rw [List.filter_filter]
            congr 1
            apply List.filter_congr
            intro x _
            by_cases hx : keyOf x = g
            · have : ¬ keyOf x = keyOf r := by rw [hx]; exact hgr
              simp [hx, this]
              exact hgr
            · simp [hx]
          have htn : t.length ≤ n := by
            simp only [List.length_cons] at hl
            omega
          rw [htail, ih (t.filter (fun x => decide (¬ keyOf x = keyOf r)))
            (le_trans (List.length_filter_le _ _) htn)]
          rw [hhead]
          have hpart := length_filter_partition t (fun x => decide (keyOf x = keyOf r))
          have hnot : (t.filter (fun x => ! decide (keyOf x = keyOf r))) =
              (t.filter (fun x => decide (¬ keyOf x = keyOf r))) := by
            apply List.filter_congr
            intro x _
            simp
          rw [hnot] at hpart
          simp only [List.length_cons]
          omega

theorem sum_partition_lengths (l : List Row) :
    (((partitionByGrp l).map (fun gp => gp.2.length)).sum) = l.length :=
  sum_partition_aux l.length l (le_refl _)

theorem sortedTsOf_length (intT : Bool) (rows : List Row) :
    (sortedTsOf intT rows).length = rows.length := by
  unfold sortedTsOf convertFrame
  rw [List.length_map, List.length_insertionSort, List.length_map]

theorem produce_ok_output (M : String → Nat → List Rat) (s : PState)
    (inputs : List Row) (s' : PState) (out : List (Option Rat))
    (hap : s.allPreds = none)
    (h : produce M s inputs = Except.ok (s', out)) :
    ∃ s1 c, produce_internal M s inputs = Except.ok (s1, c) ∧
      out = pointEstimates s.nanPadding c.1 c.2 := by
  unfold produce at h
  rw [hap] at h
  cases hpi : produce_internal M s inputs with
  | error e => rw [hpi] at h; cases h
  | ok sc =>
      rw [hpi] at h
      rcases sc with ⟨s1, c⟩
      refine ⟨s1, c, rfl, ?_⟩
      injection h with hh
      exact (congrArg Prod.snd hh).symm

theorem firstSeen_all_eq_append {α : Type} [DecidableEq α] (k : α)
    (xs ys : List α) (hne : xs ≠ []) (hall : ∀ x ∈ xs, x = k) :
    firstSeen (xs ++ ys) =
      k :: firstSeen (ys.filter (fun y => decide (¬ y = k))) := by
  cases xs with
  | nil => cases hne rfl
  | cons x xs2 =>
      have hx : x = k := hall x (List.mem_cons_self x xs2)
      rw [List.cons_append, firstSeen_cons, hx]
      congr 1
      rw [List.filter_append]
      have hxs2 : xs2.filter (fun y => decide (¬ y = k)) = [] := by
        apply List.filter_eq_nil_iff.mpr
        intro a ha
        have := hall a (List.mem_cons_of_mem x ha)
        simp [this]
      rw [hxs2, List.nil_append]

theorem partitionByGrp_blocks (blocks : List (String × List Row))
    (hkeys : (blocks.map Prod.fst).Nodup)
    (hne : ∀ bp ∈ blocks, bp.2 ≠ [])
    (hmem : ∀ bp ∈ blocks, ∀ r ∈ bp.2, keyOf r = bp.1) :
    partitionByGrp ((blocks.map Prod.snd).flatten) = blocks := by
  induction blocks with
  | nil => rfl
  | cons bp rest ih =>
      rcases bp with ⟨k, b⟩
      have hbk : ∀ r ∈ b, keyOf r = k :=
        fun r hr => hmem (k, b) (List.mem_cons_self _ _) r hr
      have hbne : b ≠ [] := hne (k, b) (List.mem_cons_self _ _)
      have hrestkey : ∀ r ∈ ((rest.map Prod.snd).flatten), ∃ bp2 ∈ rest, keyOf r = bp2.1 := by
        intro r hr
        rcases List.mem_flatten.mp hr with ⟨sub, hsub, hrsub⟩
        rcases List.mem_map.mp hsub with ⟨bp2, hbp2, hbp2e⟩
        exact ⟨bp2, hbp2, hmem bp2 (List.mem_cons_of_mem _ hbp2) r (hbp2e ▸ hrsub)⟩
      have hkc : (k :: rest.map Prod.fst).Nodup := hkeys
      have hknotrest : ¬ k ∈ rest.map Prod.fst := (List.nodup_cons.mp hkc).1
      have hrestne : ∀ r ∈ ((rest.map Prod.snd).flatten), ¬ keyOf r = k := by
        intro r hr hc
        rcases hrestkey r hr with ⟨bp2, hbp2, hkey⟩
        apply hknotrest
        rw [← hc, hkey]
        exact List.mem_map.mpr ⟨bp2, hbp2, rfl⟩
      show partitionByGrp (b ++ (rest.map Prod.snd).flatten) = (k, b) :: rest
      unfold partitionByGrp
      rw [List.map_append]
      have hkeysfs := firstSeen_all_eq_append k (b.map keyOf)
        (((rest.map Prod.snd).flatten).map keyOf)
        (by intro hc; exact hbne (List.map_eq_nil_iff.mp hc))
        (by intro x hx
            rcases List.mem_map.mp hx with ⟨r, hr, hre⟩
            rw [← hre]; exact hbk r hr)
      rw [hkeysfs]
      have hfltr : (((rest.map Prod.snd).flatten).map keyOf).filter
          (fun y => decide (¬ y = k)) = ((rest.map Prod.snd).flatten).map keyOf := by
        apply List.filter_eq_self.mpr
        intro a ha
        rcases List.mem_map.mp ha with ⟨r, hr, hre⟩
        simp only [decide_eq_true_eq]
        rw [← hre]
        exact hrestne r hr
      rw [hfltr]
      rw [List.map_cons]
      congr 1
      · -- head partition entry is (k, b)
        have hbf : (b ++ (rest.map Prod.snd).flatten).filter
            (fun x => decide (keyOf x = k)) = b := by
          rw [List.filter_append]
          have h1 : b.filter (fun x => decide (keyOf x = k)) = b := by
            apply List.filter_eq_self.mpr
            intro a ha
            simp only [decide_eq_true_eq]
            exact hbk a ha
          have h2 : ((rest.map Prod.snd).flatten).filter
              (fun x => decide (keyOf x = k)) = [] := by
            apply List.filter_eq_nil_iff.mpr
            intro a ha
            simp only [decide_eq_true_eq]
            exact hrestne a ha
          rw [h1, h2, List.append_nil]
        rw [hbf]
      · -- tail partition entries come from the rest blocks
        have hgne : ∀ g ∈ firstSeen (((rest.map Prod.snd).flatten).map keyOf),
            ¬ g = k := by
          intro g hg
          have hg2 := firstSeen_mem _ g hg
          rcases List.mem_map.mp hg2 with ⟨r, hr, hre⟩
          rw [← hre]
          exact hrestne r hr
        have hmapc : ∀ g ∈ firstSeen (((rest.map Prod.snd).flatten).map keyOf),
            (b ++ (rest.map Prod.snd).flatten).filter
              (fun x => decide (keyOf x = g)) =
            ((rest.map Prod.snd).flatten).filter
              (fun x => decide (keyOf x = g)) := by
          intro g hg
          rw [List.filter_append]
          have h1 : b.filter (fun x => decide (keyOf x = g)) = [] := by
            apply List.filter_eq_nil_iff.mpr
            intro a ha
            simp only [decide_eq_true_eq]
            rw [hbk a ha]
            intro hc
            exact hgne g hg hc.symm
          rw [h1, List.nil_append]
        calc (firstSeen (((rest.map Prod.snd).flatten).map keyOf)).map
              (fun g => (g, (b ++ (rest.map Prod.snd).flatten).filter
                (fun x => decide (keyOf x = g))))
            = (firstSeen (((rest.map Prod.snd).flatten).map keyOf)).map
              (fun g => (g, ((rest.map Prod.snd).flatten).filter
                (fun x => decide (keyOf x = g)))) := by
              apply List.map_congr_left
              intro g hg
              rw [hmapc g hg]
          _ = partitionByGrp ((rest.map Prod.snd).flatten) := rfl
          _ = rest := ih (List.nodup_cons.mp hkc).2
              (fun bp2 h2 => hne bp2 (List.mem_cons_of_mem _ h2))
              (fun bp2 h2 => hmem bp2 (List.mem_cons_of_mem _ h2))

/-- C2, corrected part.  The claim fails on the code for a query that is not
already sorted: `_robust_reindex` captures `original_times` after
`_sort_by_timestamp`, so offsets (and hence output rows) follow the sorted
order, not the input order.  For the ungrouped fitted daily instance with
train start 0 and forecast `[10, 20, 30]`, the query (day 2, day 1) returns
`[20, 30]` — the predictions of (day 1, day 2) — while the rows' own
predictions in input order are `[30, 20]`. -/
theorem C2_order_counterexample :
    produce Mfix sFitU [rowAt 172800, rowAt 86400] =
      Except.ok ({ sFitU with allPreds := some ([[[10, 20, 30]]], [[2, 3]]) },
        [some 20, some 30]) ∧
    [rowAt 172800, rowAt 86400].map (rowValueU Mfix true false 86400 0) =
      [some 30, some 20] ∧
    ([some 20, some 30] : List (Option Rat)) ≠ [some 30, some 20] := by
  refine ⟨rfl, rfl, by decide⟩

/-- C2, amended.  With an empty prediction cache, every accepted produce call
returns exactly one output row per input row (any row order, any grouping);
and output row `i` corresponds to input row `i` exactly when the query is in
canonical order — sorted by timestamp for the ungrouped case, and
partition-contiguous in first-encountered group order with each block sorted
by timestamp for the grouped case. -/
theorem C2_row_count_and_canonical_order :
    (∀ (M : String → Nat → List Rat) (s : PState) (inputs : List Row)
        (s' : PState) (out : List (Option Rat)), s.allPreds = none →
      produce M s inputs = Except.ok (s', out) →
      out.length = inputs.length) ∧
    (∀ (M : String → Nat → List Rat) (s : PState) (inputs : List Row)
        (s' : PState) (out : List (Option Rat)), s.allPreds = none →
      s.grouped = false →
      List.Sorted rowLE (convertFrame s.intTime inputs) →
      produce M s inputs = Except.ok (s', out) →
      out = inputs.map (rowValueU M s.nanPadding s.intTime
        (periodOf ((freqEffect s).freq.getD "S")) (s.minTrainsU.getD 0))) ∧
    (∀ (M : String → Nat → List Rat) (s : PState)
        (blocks : List (String × List Row)) (s' : PState)
        (out : List (Option Rat)), s.allPreds = none →
      s.grouped = true →
      (blocks.map Prod.fst).Nodup →
      (∀ bp ∈ blocks, bp.2 ≠ []) →
      (∀ bp ∈ blocks, ∀ r ∈ bp.2, keyOf r = bp.1) →
      (∀ bp ∈ blocks, List.Sorted rowLE (convertFrame s.intTime bp.2)) →
      produce M s ((blocks.map Prod.snd).flatten) = Except.ok (s', out) →
      out = ((blocks.map Prod.snd).flatten).map
        (rowValue M s.nanPadding s.intTime
          (periodOf ((freqEffect s).freq.getD "S")) s.minTrainsG)) := by
  refine ⟨?_, ?_, ?_⟩
  · intro M s inputs s' out hap hok
    obtain ⟨s1, c, hpi, hout⟩ := produce_ok_output M s inputs s' out hap hok
    by_cases hg : s.grouped = true
    · rw [hout, produce_internal_grouped_output M s inputs s1 c hg hpi]
      rw [List.length_flatten, List.map_map]
      have hcong : ((partitionByGrp inputs).map
          (List.length ∘ (fun gp => (sortedTsOf s.intTime gp.2).map (fun t =>
            project s.nanPadding (M gp.1 0)
              (offsetOf (periodOf ((freqEffect s).freq.getD "S"))
                s.minTrainsG gp.1 t))))) =
          ((partitionByGrp inputs).map (fun gp => gp.2.length)) := by
        apply List.map_congr_left
        intro gp _
        simp [sortedTsOf_length]
      rw [hcong, sum_partition_lengths]
    · have hg2 : s.grouped = false := by simpa using hg
      rw [hout, produce_internal_ungrouped_output M s inputs s1 c hg2 hpi]
      rw [List.length_map, sortedTsOf_length]
  · intro M s inputs s' out hap hg hsorted hok
    obtain ⟨s1, c, hpi, hout⟩ := produce_ok_output M s inputs s' out hap hok
    rw [hout, produce_internal_ungrouped_output M s inputs s1 c hg hpi]
    unfold sortedTsOf
    rw [List.Sorted.insertionSort_eq hsorted]
    unfold convertFrame rowValueU
    rw [List.map_map, List.map_map]
    rfl
  · intro M s blocks s' out hap hg hkeys hne hmem hsorted hok
    obtain ⟨s1, c, hpi, hout⟩ :=
      produce_ok_output M s ((blocks.map Prod.snd).flatten) s' out hap hok
    rw [hout, produce_internal_grouped_output M s _ s1 c hg hpi]
    rw [partitionByGrp_blocks blocks hkeys hne hmem]
    have hrhs : ((blocks.map Prod.snd).flatten).map
        (rowValue M s.nanPadding s.intTime
          (periodOf ((freqEffect s).freq.getD "S")) s.minTrainsG) =
        ((blocks.map Prod.snd).map (List.map (rowValue M s.nanPadding s.intTime
          (periodOf ((freqEffect s).freq.getD "S")) s.minTrainsG))).flatten := by
      rw [List.map_flatten]
    rw [hrhs]
    congr 1
    rw [List.map_map]
    apply List.map_congr_left
    intro bp hbp
    simp only [Function.comp_apply]
    unfold sortedTsOf
    rw [List.Sorted.insertionSort_eq (hsorted bp hbp)]
    unfold convertFrame
    rw [List.map_map, List.map_map]
    apply List.map_congr_left
    intro r hr
    simp only [Function.comp_apply]
    unfold rowValue
    rw [hmem bp hbp r hr]

/-- C2 witness: a single-row sorted ungrouped query; the output has one row
per input row and equals the per-row predictions. -/
theorem C2_row_count_witness :
    ([some (10 : Rat)] : List (Option Rat)).length = [rowAt 0].length ∧
    ([some (10 : Rat)] : List (Option Rat)) =
      [rowAt 0].map (rowValueU Mfix sFitU.nanPadding sFitU.intTime
        (periodOf ((freqEffect sFitU).freq.getD "S"))
        (sFitU.minTrainsU.getD 0)) := by
  constructor
  · exact C2_row_count_and_canonical_order.1 Mfix sFitU [rowAt 0] s1fix
      [some 10] rfl rfl
  · exact C2_row_count_and_canonical_order.2.1 Mfix sFitU [rowAt 0] s1fix
      [some 10] rfl rfl (by simp [convertFrame, convertTs]) rfl

theorem applyCols_length (rows : List Row) :
    (applyCols rows).length = rows.length := by
  simp [applyCols]

theorem applyCols_getElem (rows : List Row) (i : Nat) (hi : i < rows.length)
    (r : Row) (hr : rows[i]? = some r) :
    (applyCols rows)[i]? = some
      { r with real := interpAt (rows.map (fun x => x.real)) i,
               cat := ffillAt (rows.map (fun x => x.cat)) i,
               grp := ffillAt (rows.map (fun x => x.grp)) i } := by
  unfold applyCols
  rw [List.getElem?_map, List.getElem?_range hi]
  simp [hr]

theorem applyCols_map_ts (rows : List Row) :
    (applyCols rows).map (fun r => r.ts) = rows.map (fun r => r.ts) := by
  apply List.ext_getElem?
  intro i
  by_cases hi : i < rows.length
  · rcases List.getElem?_eq_some_iff.mpr ⟨hi, rfl⟩ with hr
    have hr2 : rows[i]? = some (rows.get ⟨i, hi⟩) := by
      simpa using hr
    rw [List.getElem?_map, List.getElem?_map,
      applyCols_getElem rows i hi _ hr2, hr2]
    rfl
  · have h1 : (applyCols rows)[i]? = none := by
      apply List.getElem?_eq_none
      rw [applyCols_length]
      omega
    have h2 : rows[i]? = none := by
      apply List.getElem?_eq_none
      omega
    rw [List.getElem?_map, List.getElem?_map, h1, h2]

theorem interpAt_of_some (l : List (Option Rat)) (i : Nat) (v : Rat)
    (h : l[i]? = some (some v)) : interpAt l i = some v := by
  unfold interpAt
  rw [h]

theorem ffillAt_of_some {α : Type} (l : List (Option α)) (i : Nat) (v : α)
    (h : l[i]? = some (some v)) : ffillAt l i = some v := by
  unfold ffillAt
  have hi : i < l.length := by
    by_contra hc
    rw [List.getElem?_eq_none (by omega)] at h
    cases h
  rw [List.take_succ, h]
  simp

theorem applyCols_eq_self (rows : List Row)
    (h : ∀ r ∈ rows, r.real.isSome ∧ r.cat.isSome ∧ r.grp.isSome) :
    applyCols rows = rows := by
  apply List.ext_getElem?
  intro i
  by_cases hi : i < rows.length
  · have hr2 : rows[i]? = some (rows.get ⟨i, hi⟩) := by
      simpa using List.getElem?_eq_some_iff.mpr ⟨hi, rfl⟩
    set r := rows.get ⟨i, hi⟩ with hrdef
    have hmem : r ∈ rows := List.get_mem rows i hi
    obtain ⟨hre, hca, hgr⟩ := h r hmem
    rcases Option.isSome_iff_exists.mp hre with ⟨vr, hvr⟩
    rcases Option.isSome_iff_exists.mp hca with ⟨vc, hvc⟩
    rcases Option.isSome_iff_exists.mp hgr with ⟨vg, hvg⟩
    rw [applyCols_getElem rows i hi r hr2, hr2]
    congr 1
    have h1 : interpAt (rows.map (fun x => x.real)) i = r.real := by
      rw [hvr]
      apply interpAt_of_some
      rw [List.getElem?_map, hr2]
      simp [hvr]
    have h2 : ffillAt (rows.map (fun x => x.cat)) i = r.cat := by
      rw [hvc]
      apply ffillAt_of_some
      rw [List.getElem?_map, hr2]
      simp [hvc]
    have h3 : ffillAt (rows.map (fun x => x.grp)) i = r.grp := by
      rw [hvg]
      apply ffillAt_of_some
      rw [List.getElem?_map, hr2]
      simp [hvg]
    rw [h1, h2, h3]
  · rw [List.getElem?_eq_none (by rw [applyCols_length]; omega),
      List.getElem?_eq_none (by omega)]

theorem validEntries_mem (l : List (Option Rat)) (j : Nat) (v : Rat) :
    (j, v) ∈ validEntries l ↔ l[j]? = some (some v) := by
  unfold validEntries
  rw [List.mem_filterMap]
  constructor
  · intro ⟨jv, hjv, heq⟩
    cases hx : jv.2 with
    | none => rw [hx] at heq; cases heq
    | some w =>
        rw [hx] at heq
        simp only [Option.map_some'] at heq
        injection heq with hpair
        have h1 : jv.1 = j := congrArg Prod.fst hpair
        have h2 : w = v := congrArg Prod.snd hpair
        have := List.mk_mem_enum_iff_getElem?.mp
          (show (jv.1, jv.2) ∈ l.enum from hjv)
        rw [h1, hx, h2] at this
        exact this
  · intro hl
    exact ⟨(j, some v), List.mk_mem_enum_iff_getElem?.mpr hl, rfl⟩

theorem prevValid_eq_none_iff (l : List (Option Rat)) (i : Nat) :
    prevValid l i = none ↔
      ∀ j, j < i → ∀ v : Rat, ¬ l[j]? = some (some v) := by
  unfold prevValid
  rw [List.getLast?_eq_none_iff, List.filter_eq_nil_iff]
  constructor
  · intro h j hj v hl
    have := h (j, v) ((validEntries_mem l j v).mpr hl)
    simp at this
    omega
  · intro h jv hjv
    simp only [decide_eq_true_eq]
    intro hlt
    exact h jv.1 hlt jv.2 ((validEntries_mem l jv.1 jv.2).mp (by simpa using hjv))

theorem interpAt_none_char (l : List (Option Rat)) (i : Nat)
    (hi : i < l.length) :
    interpAt l i = none ↔ ∀ j, j ≤ i → l[j]? = some none := by
  cases hl : l[i]? with
  | none =>
      exfalso
      rw [List.getElem?_eq_getElem hi] at hl
      cases hl
  | some x =>
      cases x with
      | some v =>
          constructor
          · intro h
            rw [interpAt_of_some l i v hl] at h
            cases h
          · intro h
            have := h i (le_refl i)
            rw [hl] at this
            cases this
      | none =>
          have hstep : interpAt l i = none ↔ prevValid l i = none := by
            unfold interpAt
            rw [hl]
            cases hpv : prevValid l i with
            | some jv =>
                cases hnv : nextValid l i <;> simp
            | none => simp
          rw [hstep, prevValid_eq_none_iff]
          constructor
          · intro h j hj
            rcases Nat.lt_or_ge j i with hlt | hge
            · have hjlen : j < l.length := by omega
              rcases hx : l[j]? with _ | x2
              · rw [List.getElem?_eq_getElem hjlen] at hx; cases hx
              · cases x2 with
                | none => rfl
                | some v => exact absurd hx (h j hlt v)
            · have : j = i := by omega
              rw [this, hl]
          · intro h j hj v hc
            have := h j (by omega)
            rw [this] at hc
            cases hc

theorem ffillAt_none_char {α : Type} (l : List (Option α)) (i : Nat)
    (hi : i < l.length) :
    ffillAt l i = none ↔ ∀ j, j ≤ i → l[j]? = some none := by
  unfold ffillAt
  rw [List.getLast?_eq_none_iff, List.filterMap_eq_nil_iff]
  constructor
  · intro h j hj
    have hjlen : j < l.length := by omega
    rcases hx : l[j]? with _ | x
    · rw [List.getElem?_eq_getElem hjlen] at hx; cases hx
    · have hmem : x ∈ l.take (i + 1) := by
        rw [List.mem_iff_getElem?]
        refine ⟨j, ?_⟩
        rw [List.getElem?_take]
        rw [if_pos (by omega)]
        exact hx
      have := h x hmem
      simp only [id] at this
      rw [this]
  · intro h x hx
    rcases List.mem_iff_getElem?.mp hx with ⟨j, hj⟩
    rw [List.getElem?_take] at hj
    by_cases hji : j < i + 1
    · rw [if_pos hji] at hj
      have := h j (by omega)
      rw [this] at hj
      injection hj with hh
      rw [← hh]
      rfl
    · rw [if_neg hji] at hj
      cases hj

theorem interp_idem (R Rp : List (Option Rat)) (hlen : Rp.length = R.length)
    (hpt : ∀ j, j < R.length → Rp[j]? = some (interpAt R j)) (i : Nat)
    (hi : i < R.length) : interpAt Rp i = interpAt R i := by
  cases hv : interpAt R i with
  | some v =>
      apply interpAt_of_some
      rw [hpt i hi, hv]
  | none =>
      rw [interpAt_none_char Rp i (by omega)]
      intro j hj
      have hjlen : j < R.length := by omega
      rw [hpt j hjlen]
      have hRj : interpAt R j = none := by
        rw [interpAt_none_char R j hjlen]
        intro k hk
        exact (interpAt_none_char R i hi).mp hv k (by omega)
      rw [hRj]

theorem ffill_idem {α : Type} (C Cp : List (Option α))
    (hlen : Cp.length = C.length)
    (hpt : ∀ j, j < C.length → Cp[j]? = some (ffillAt C j)) (i : Nat)
    (hi : i < C.length) : ffillAt Cp i = ffillAt C i := by
  cases hv : ffillAt C i with
  | some v =>
      apply ffillAt_of_some
      rw [hpt i hi, hv]
  | none =>
      rw [ffillAt_none_char Cp i (by omega)]
      intro j hj
      have hjlen : j < C.length := by omega
      rw [hpt j hjlen]
      have hCj : ffillAt C j = none := by
        rw [ffillAt_none_char C j hjlen]
        intro k hk
        exact (ffillAt_none_char C i hi).mp hv k (by omega)
      rw [hCj]

theorem applyCols_idem (rows : List Row) :
    applyCols (applyCols rows) = applyCols rows := by
  apply List.ext_getElem?
  intro i
  by_cases hi : i < rows.length
  · have hr2 : rows[i]? = some (rows.get ⟨i, hi⟩) := by
      simpa using List.getElem?_eq_some_iff.mpr ⟨hi, rfl⟩
    have hA := applyCols_getElem rows i hi _ hr2
    have hAlen : (applyCols rows).length = rows.length := applyCols_length rows
    have hA2 := applyCols_getElem (applyCols rows) i (by omega) _ hA
    rw [hA2, hA]
    congr 1
    have hptR : ∀ j, j < (rows.map (fun x => x.real)).length →
        ((applyCols rows).map (fun x => x.real))[j]? =
          some (interpAt (rows.map (fun x => x.real)) j) := by
      intro j hj
      rw [List.length_map] at hj
      have hrj : rows[j]? = some (rows.get ⟨j, hj⟩) := by
        simpa using List.getElem?_eq_some_iff.mpr ⟨hj, rfl⟩
      rw [List.getElem?_map, applyCols_getElem rows j hj _ hrj]
      rfl
    have hptC : ∀ j, j < (rows.map (fun x => x.cat)).length →
        ((applyCols rows).map (fun x => x.cat))[j]? =
          some (ffillAt (rows.map (fun x => x.cat)) j) := by
      intro j hj
      rw [List.length_map] at hj
      have hrj : rows[j]? = some (rows.get ⟨j, hj⟩) := by
        simpa using List.getElem?_eq_some_iff.mpr ⟨hj, rfl⟩
      rw [List.getElem?_map, applyCols_getElem rows j hj _ hrj]
      rfl
    have hptG : ∀ j, j < (rows.map (fun x => x.grp)).length →
        ((applyCols rows).map (fun x => x.grp))[j]? =
          some (ffillAt (rows.map (fun x => x.grp)) j) := by
      intro j hj
      rw [List.length_map] at hj
      have hrj : rows[j]? = some (rows.get ⟨j, hj⟩) := by
        simpa using List.getElem?_eq_some_iff.mpr ⟨hj, rfl⟩
      rw [List.getElem?_map, applyCols_getElem rows j hj _ hrj]
      rfl
    have h1 := interp_idem (rows.map (fun x => x.real))
      ((applyCols rows).map (fun x => x.real))
      (by rw [List.length_map, List.length_map, applyCols_length]) hptR i
      (by rw [List.length_map]; exact hi)
    have h2 := ffill_idem (rows.map (fun x => x.cat))
      ((applyCols rows).map (fun x => x.cat))
      (by rw [List.length_map, List.length_map, applyCols_length]) hptC i
      (by rw [List.length_map]; exact hi)
    have h3 := ffill_idem (rows.map (fun x => x.grp))
      ((applyCols rows).map (fun x => x.grp))
      (by rw [List.length_map, List.length_map, applyCols_length]) hptG i
      (by rw [List.length_map]; exact hi)
    rw [h1, h2, h3]
  · rw [List.getElem?_eq_none
        (by rw [applyCols_length, applyCols_length]; omega),
      List.getElem?_eq_none (by rw [applyCols_length]; omega)]

theorem arithProg_length (t0 p : Int) (n : Nat) :
    (arithProg t0 p n).length = n := by
  unfold arithProg
  rw [List.length_map, List.length_range]

theorem map_ts_at (frame : List Row) (t0 p : Int)
    (hts : frame.map (fun r => r.ts) =
      (arithProg t0 p frame.length).map some)
    (i : Nat) (hi : i < frame.length) :
    (frame.get ⟨i, hi⟩).ts = some (t0 + p * i) := by
  have hcong := congrArg (fun l => l[i]?) hts
  simp only at hcong
  rw [List.getElem?_map, List.getElem?_map] at hcong
  unfold arithProg at hcong
  rw [List.getElem?_map, List.getElem?_range hi,
    List.getElem?_eq_getElem hi] at hcong
  simp only [Option.map_some'] at hcong
  injection hcong

theorem sorted_of_arith (frame : List Row) (t0 p : Int) (hp : 0 < p)
    (hts : frame.map (fun r => r.ts) =
      (arithProg t0 p frame.length).map some) :
    List.Sorted rowLE frame := by
  rw [List.Sorted, List.pairwise_iff_get]
  intro i j hij
  unfold rowLE
  rw [map_ts_at frame t0 p hts i.1 i.2, map_ts_at frame t0 p hts j.1 j.2]
  unfold tsLEb
  simp only [decide_eq_true_eq]
  have hij2 : (i.1 : Int) ≤ j.1 := by exact_mod_cast le_of_lt hij
  nlinarith [hp]

theorem pairwise_ts_ne_of_arith (frame : List Row) (t0 p : Int) (hp : 0 < p)
    (hts : frame.map (fun r => r.ts) =
      (arithProg t0 p frame.length).map some) :
    List.Pairwise (fun a b : Row => a.ts ≠ b.ts) frame := by
  rw [List.pairwise_iff_get]
  intro i j hij
  rw [map_ts_at frame t0 p hts i.1 i.2, map_ts_at frame t0 p hts j.1 j.2]
  intro hc
  injection hc with hv
  have hij2 : (i.1 : Int) < j.1 := by exact_mod_cast hij
  nlinarith [hp]

theorem dedupByTsGo_eq_self (l : List Row) :
    ∀ (seen : List (Option Int)), (∀ r ∈ l, ¬ r.ts ∈ seen) →
      List.Pairwise (fun a b : Row => a.ts ≠ b.ts) l →
      dedupByTsGo seen l = l := by
  induction l with
  | nil => intro seen _ _; rfl
  | cons r t ih =>
      intro seen hseen hpw
      unfold dedupByTsGo
      rw [if_neg (hseen r (List.mem_cons_self r t))]
      congr 1
      apply ih
      · intro x hx
        rw [List.mem_cons]
        intro hc
        rcases hc with hc | hc
        · exact (List.pairwise_cons.mp hpw).1 x hx hc.symm
        · exact hseen x (List.mem_cons_of_mem r hx) hc
      · exact (List.pairwise_cons.mp hpw).2

theorem dedupByTs_eq_self (l : List Row)
    (h : List.Pairwise (fun a b : Row => a.ts ≠ b.ts) l) :
    dedupByTs l = l :=
  dedupByTsGo_eq_self l [] (fun r _ hc => by cases hc) h

theorem gridRange_arith (t0 p : Int) (n : Nat) (hp : 0 < p) (hn : 1 ≤ n) :
    gridRange t0 (t0 + p * ((n : Int) - 1)) p = arithProg t0 p n := by
  unfold gridRange
  congr 1
  have h1 : t0 + p * ((n : Int) - 1) - t0 = p * ((n : Int) - 1) := by ring
  rw [h1, Int.mul_ediv_cancel_left _ (ne_of_gt hp)]
  omega

theorem find_arith (p : Int) (hp : 0 < p) :
    ∀ (l : List Row) (t0 : Int),
      (∀ j (hj : j < l.length), (l.get ⟨j, hj⟩).ts = some (t0 + p * j)) →
      ∀ i (hi : i < l.length),
        l.find? (fun r => decide (r.ts = some (t0 + p * i))) =
          some (l.get ⟨i, hi⟩) := by
  intro l
  induction l with
  | nil => intro t0 h i hi; cases hi
  | cons r t ih =>
      intro t0 h i hi
      have hr0 : r.ts = some t0 := by
        have h0 := h 0 (by omega)
        simpa using h0
      cases i with
      | zero =>
          have hpos : decide (r.ts = some (t0 + p * ((0 : Nat) : Int))) = true := by
            simp [hr0]
          rw [List.find?_cons]
          rw [hpos]
          rfl
      | succ k =>
          have hneg : decide (r.ts = some (t0 + p * ((k + 1 : Nat) : Int))) = false := by
            rw [hr0, decide_eq_false_iff_not]
            intro hc
            injection hc with hv
            have hkpos : (0 : Int) < ((k + 1 : Nat) : Int) := by positivity
            have := mul_pos hp hkpos
            linarith
          rw [List.find?_cons]
          rw [hneg]
          have hcast : ((k + 1 : Nat) : Int) = (k : Int) + 1 := by push_cast; ring
          have htarget : t0 + p * ((k + 1 : Nat) : Int) = (t0 + p) + p * k := by
            rw [hcast]; ring
          rw [htarget]
          have hrec := ih (t0 + p) (fun j hj => by
            have hj2 := h (j + 1) (by simpa using Nat.succ_lt_succ hj)
            have hcast2 : ((j + 1 : Nat) : Int) = (j : Int) + 1 := by push_cast; ring
            rw [hcast2] at hj2
            have : t0 + p * ((j : Int) + 1) = (t0 + p) + p * j := by ring
            rw [this] at hj2
            simpa using hj2) k
            (by have hk := hi; simp only [List.length_cons] at hk; omega)
          rw [hrec]
          rfl

theorem regularize_of_regular (p : Int) (frame : List Row) (t0 : Int)
    (hp : 0 < p)
    (hts : frame.map (fun r => r.ts) =
      (arithProg t0 p frame.length).map some) :
    robust_reindex p frame =
      Except.ok ⟨applyCols frame, frame.map (fun r => r.ts),
        frame.map (fun r => r.ts)⟩ := by
  have hsorted : List.Sorted rowLE frame := sorted_of_arith frame t0 p hp hts
  have hdd : dedupByTs frame = frame :=
    dedupByTs_eq_self frame (pairwise_ts_ne_of_arith frame t0 p hp hts)
  unfold robust_reindex
  rw [List.Sorted.insertionSort_eq hsorted]
  unfold regularizeSorted
  dsimp only
  rw [hdd]
  by_cases hlen : frame.length ≤ 1
  · rw [if_pos hlen]
  · rw [if_neg hlen]
    have hn2 : 2 ≤ frame.length := by omega
    have hhead : frame.head?.bind (fun r => r.ts) = some t0 := by
      have h0lt : 0 < frame.length := by omega
      have h0 : frame[0].ts = some (t0 + p * ((0 : Nat) : Int)) :=
        map_ts_at frame t0 p hts 0 h0lt
      rw [List.head?_eq_getElem? frame, List.getElem?_eq_getElem h0lt]
      simp only [Option.some_bind]
      rw [h0]
      simp
    have hcast : ((frame.length - 1 : Nat) : Int) = (frame.length : Int) - 1 := by
      omega
    have hlast : frame.getLast?.bind (fun r => r.ts) =
        some (t0 + p * ((frame.length : Int) - 1)) := by
      have hlt : frame.length - 1 < frame.length := by omega
      have hl : frame[frame.length - 1].ts =
          some (t0 + p * ((frame.length - 1 : Nat) : Int)) :=
        map_ts_at frame t0 p hts (frame.length - 1) hlt
      rw [List.getLast?_eq_getElem? frame, List.getElem?_eq_getElem hlt]
      simp only [Option.some_bind]
      rw [hl, hcast]
    rw [hhead, hlast]
    dsimp only
    have hgrid := gridRange_arith t0 p frame.length hp (by omega)
    rw [hgrid]
    have hfind : (arithProg t0 p frame.length).map (fun g =>
        (frame.find? (fun r => decide (r.ts = some g))).getD gapRow) = frame := by
      apply List.ext_getElem?
      intro i
      by_cases hi : i < frame.length
      · rw [List.getElem?_map]
        unfold arithProg
        rw [List.getElem?_map, List.getElem?_range hi]
        simp only [Option.map_some']
        rw [find_arith p hp frame t0
          (fun j hj => map_ts_at frame t0 p hts j hj) i hi]
        rw [List.getElem?_eq_getElem hi]
        rfl
      · rw [List.getElem?_eq_none (by rw [List.length_map, arithProg_length]; omega),
          List.getElem?_eq_none (by omega)]
    rw [hfind]
    congr 2
    rw [hts]

theorem find_getD_ts (dd : List Row) (g : Int)
    (hne : ((dd.find? (fun r => decide (r.ts = some g))).getD gapRow).ts ≠ none) :
    ((dd.find? (fun r => decide (r.ts = some g))).getD gapRow).ts = some g := by
  rcases hfind : dd.find? (fun r => decide (r.ts = some g)) with _ | row
  · rw [hfind] at hne
    exact absurd rfl hne
  · rw [hfind]
    simp only [Option.getD_some]
    have hp2 := List.find?_some hfind
    exact of_decide_eq_true hp2

theorem robust_reindex_ok_rows (p : Int) (frame : List Row) (out : RegOut)
    (hok : robust_reindex p frame = Except.ok out)
    (hng : none ∉ out.rows.map (fun r => r.ts)) :
    (∃ X, out.rows = applyCols X) ∧
    (∃ u, out.rows.map (fun r => r.ts) =
      (arithProg u p out.rows.length).map some) := by
  unfold robust_reindex regularizeSorted at hok
  dsimp only at hok
  rcases hdd : dedupByTs (List.insertionSort rowLE frame) with _ | ⟨r, t⟩
  · rw [hdd] at hok
    rw [if_pos (by decide)] at hok
    injection hok with h
    subst h
    exact ⟨⟨[], rfl⟩, ⟨0, rfl⟩⟩
  · rcases t with _ | ⟨r2, t2⟩
    · rw [hdd] at hok
      rw [if_pos (by simp)] at hok
      injection hok with h
      subst h
      dsimp only at hng ⊢
      refine ⟨⟨[r], rfl⟩, ?_⟩
      have hmap := applyCols_map_ts [r]
      have hlen1 : (applyCols [r]).length = 1 := applyCols_length [r]
      rw [hmap] at hng
      simp only [List.map_cons, List.map_nil, List.mem_cons,
        List.not_mem_nil, or_false] at hng
      rcases hr : r.ts with _ | v
      · rw [hr] at hng
        exact absurd rfl hng
      · refine ⟨v, ?_⟩
        rw [hmap, hlen1]
        simp [arithProg, hr, List.range_succ, List.range_zero]
    · rw [hdd] at hok
      rw [if_neg (by simp only [List.length_cons]; omega)] at hok
      split at hok
      · rename_i u t1 hh hl
        injection hok with h
        subst h
        dsimp only at hng ⊢
        refine ⟨⟨_, rfl⟩, ⟨u, ?_⟩⟩
        rw [applyCols_map_ts, applyCols_length, List.length_map]
        unfold gridRange
        rw [arithProg_length, List.map_map]
        apply List.map_congr_left
        intro g hg
        simp only [Function.comp_apply]
        apply find_getD_ts
        intro hnone
        apply hng
        rw [applyCols_map_ts, List.map_map]
        exact List.mem_map.mpr ⟨g, hg,
          by simp only [Function.comp_apply]; exact hnone⟩
      · exact Except.noConfusion hok

theorem robust_reindex_second (p : Int) (hp : 0 < p)
    (frame : List Row) (out : RegOut)
    (hok : robust_reindex p frame = Except.ok out)
    (hng : none ∉ out.rows.map (fun r => r.ts)) :
    robust_reindex p out.rows =
      Except.ok ⟨out.rows, out.rows.map (fun r => r.ts),
        out.rows.map (fun r => r.ts)⟩ := by
  obtain ⟨⟨X, hX⟩, ⟨u, hu⟩⟩ := robust_reindex_ok_rows p frame out hok hng
  have hfix : applyCols out.rows = out.rows := by
    rw [hX, applyCols_idem]
  rw [regularize_of_regular p out.rows u hp hu, hfix]

/-- C1.  The claim fails on the code: `_get_pred_intervals` assigns an unseen
group `np.zeros`, but the trailing `np.array(intervals) + 1` increments those
zeros too, so every row of a group absent from the fitted `min_trains` map
receives offset 1 — not the sentinel 0 — and the Forecast Projector resolves
offset 1 by indexing position 0 of a forecast array (under either padding
policy), not through the padding policy.  This contradicts the primitive's own
log message that unseen-group predictions "will be returned as np.nan". -/
theorem C1_unseen_group_offset_one :
    get_pred_intervals 86400 [("A", 0)] [("B", [some 0, some 86400])] = [[1, 1]] ∧
    [[1, 1]] ≠ [[0, 0]] ∧
    (∀ (b : Bool) (q : Rat) (arr : List Rat),
      project b (q :: arr) 1 = some q) := by
  refine ⟨by decide, by decide, fun b q arr => ?_⟩
  simp [project]

/-- C4.  Offsets of a fitted group are the floor-discretized period counts
plus one, and offset computation is translation-consistent: shifting the train
start by `k` canonical periods shifts every offset by `-k`. -/
theorem C4_offset_translation :
    (∀ (p start : Int) (g : String) (ts : List (Option Int)),
      get_pred_intervals p [(g, start)] [(g, ts)] =
        [ts.map (fun t => discretizeO t start p + 1)]) ∧
    (∀ (v start k p : Int), 0 < p →
      discretizeO (some v) (start + k * p) p = discretizeO (some v) start p - k) := by
  constructor
  · intro p start g ts
    simp [get_pred_intervals, List.lookup]
  · intro v start k p hp
    show (v - (start + k * p)) / p = (v - start) / p - k
    have h : v - (start + k * p) = (v - start) + (-k) * p := by ring
    rw [h, Int.add_mul_ediv_right _ _ (ne_of_gt hp)]
    ring

/-- C4 witness: daily frequency, train start shifted by 2 days. -/
theorem C4_offset_translation_witness :
    discretizeO (some 432000) (0 + 2 * 86400) 86400 =
      discretizeO (some 432000) 0 86400 - 2 :=
  C4_offset_translation.2 432000 0 2 86400 (by decide)

theorem pythonDict_foldl_eq (l acc : List (Rat × List (Option Rat)))
    (h : ((acc.map Prod.fst) ++ (l.map Prod.fst)).Nodup) :
    l.foldl (fun d kv => dictInsert d kv.1 kv.2) acc = acc ++ l := by
  induction l generalizing acc with
  | nil => simp
  | cons kv t ih =>
      have hk : ¬ ∃ x ∈ acc, x.1 = kv.1 := by
        intro ⟨x, hx, hx1⟩
        have hmem : kv.1 ∈ acc.map Prod.fst := by
          exact List.mem_map.mpr ⟨x, hx, hx1⟩
        have hmem2 : kv.1 ∈ kv.1 :: t.map Prod.fst := by simp
        have := (List.nodup_append.mp (by simpa using h)).2.2
        exact this hmem hmem2
      have hins : dictInsert acc kv.1 kv.2 = acc ++ [(kv.1, kv.2)] := by
        unfold dictInsert
        rw [if_neg]
        simp only [List.any_eq_true, decide_eq_true_eq]
        exact hk
      have hnd : (((acc ++ [(kv.1, kv.2)]).map Prod.fst) ++ (t.map Prod.fst)).Nodup := by
        simp only [List.map_append, List.map_cons, List.map_nil, List.append_assoc,
          List.singleton_append]
        simpa using h
      calc (kv :: t).foldl (fun d x => dictInsert d x.1 x.2) acc
          = t.foldl (fun d x => dictInsert d x.1 x.2) (acc ++ [(kv.1, kv.2)]) := by
            simp [List.foldl_cons, hins]
        _ = (acc ++ [(kv.1, kv.2)]) ++ t := ih _ hnd
        _ = acc ++ kv :: t := by simp

theorem pythonDict_eq_self (l : List (Rat × List (Option Rat)))
    (h : (l.map Prod.fst).Nodup) : pythonDict l = l := by
  simpa using pythonDict_foldl_eq l [] (by simpa using h)

theorem allQuantilesOf_length (nanP : Bool) (nQ : Nat)
    (preds : List (List (List Rat))) (intervals : List (List Int)) :
    (allQuantilesOf nanP nQ preds intervals).length = 1 + nQ := by
  simp [allQuantilesOf]

/-- C9, corrected part.  When `0.5` is itself among the configured quantiles,
the Python dict comprehension collapses the duplicate `0.5` key, so
`produce_confidence_intervals` returns `|Q|` columns, not the claimed
`1 + |Q|`: with `Q = {0.5}` there is a single column. -/
theorem C9_median_collision :
    (ciColumns true [(1 : Rat)/2] [[[1, 2], [3, 4]]] [[1]]).length = 1 ∧
    1 ≠ 1 + [(1 : Rat)/2].length := by
  constructor
  · simp [ciColumns, allQuantilesOf, pythonDict, dictInsert, List.range_succ]
  · simp

/-- C9, amended.  Provided the point-estimate key `0.5` is not itself a
configured quantile, the confidence-interval result has exactly the columns
`0.5, q1, ..., qn` (hence `1 + |Q|` of them), the columns are exactly the
per-statistic projections over the same per-group offset lists, every column
has the same length as the point-estimate output of `produce` (same row count
and alignment), and column 0 is exactly that point-estimate output. -/
theorem C9_ci_columns :
    (∀ (nanP : Bool) (Q : List Rat) (preds : List (List (List Rat)))
        (intervals : List (List Int)), Q.Nodup → (1 : Rat)/2 ∉ Q →
      (ciColumns nanP Q preds intervals).map Prod.fst = (1 : Rat)/2 :: Q ∧
      (ciColumns nanP Q preds intervals).map Prod.snd =
        allQuantilesOf nanP Q.length preds intervals) ∧
    (∀ (nanP : Bool) (preds : List (List (List Rat)))
        (intervals : List (List Int)) (j : Nat),
      (statColumn nanP preds intervals j).length =
        (pointEstimates nanP preds intervals).length) ∧
    (∀ (nanP : Bool) (preds : List (List (List Rat)))
        (intervals : List (List Int)),
      statColumn nanP preds intervals 0 = pointEstimates nanP preds intervals) := by
  refine ⟨?_, ?_, ?_⟩
  · intro nanP Q preds intervals hnd hnot
    have hlen : ((1 : Rat)/2 :: Q).length =
        (allQuantilesOf nanP Q.length preds intervals).length := by
      simp [allQuantilesOf_length]
      omega
    have hzf : ((((1 : Rat)/2 :: Q).zip
        (allQuantilesOf nanP Q.length preds intervals)).map Prod.fst) =
        (1 : Rat)/2 :: Q := List.map_fst_zip _ _ hlen.le
    have hnd2 : ((((1 : Rat)/2 :: Q).zip
        (allQuantilesOf nanP Q.length preds intervals)).map Prod.fst).Nodup := by
      rw [hzf]; exact List.nodup_cons.mpr ⟨hnot, hnd⟩
    have hid : ciColumns nanP Q preds intervals =
        ((1 : Rat)/2 :: Q).zip (allQuantilesOf nanP Q.length preds intervals) :=
      pythonDict_eq_self _ hnd2
    refine ⟨by rw [hid]; exact hzf, by rw [hid]; exact List.map_snd_zip _ _ hlen.ge⟩
  · intro nanP preds intervals j
    simp only [statColumn, pointEstimates, List.length_flatten, List.map_map]
    congr 1
    apply List.map_congr_left
    intro si _
    simp
  · intro nanP preds intervals
    unfold statColumn pointEstimates
    congr 1
    apply List.map_congr_left
    intro si _
    cases h : si.1 <;> simp [h]

/-- C3.  The claim fails on the code: `_all_preds` is assigned only in
`__init__` (to `None`) and by the first successful produce; neither a produce
call with new inputs nor a re-fit resets it.  Concretely, on a fitted daily
instance with train start 0 and forecast `[10, 20, 30]`: a fresh produce on a
query at day 1 yields offset 2 and prediction 20, but after a first produce on
a query at day 0 (cached prediction 10), the same day-1 query — before or
after re-fitting — still returns the cached 10 computed from the old input. -/
theorem C3_produce_cache_never_invalidated :
    produce Mfix sFitU [rowAt 0] = Except.ok (s1fix, [some 10]) ∧
    produce Mfix sFitU [rowAt 86400] =
      Except.ok ({ sFitU with allPreds := some ([[[10, 20, 30]]], [[2]]) },
        [some 20]) ∧
    produce Mfix s1fix [rowAt 86400] = Except.ok (s1fix, [some 10]) ∧
    fit s1fix = Except.ok { s1fix with isFit := true } ∧
    ({ s1fix with isFit := true } : PState).allPreds = s1fix.allPreds ∧
    produce Mfix { s1fix with isFit := true } [rowAt 86400] =
      Except.ok ({ s1fix with isFit := true }, [some 10]) := by
  exact ⟨rfl, rfl, rfl, rfl, rfl, rfl⟩

/-- C10.  Whenever the timestamp column carries the Integer semantic type,
`_sort_by_timestamp` converts every raw value `v` to the time point `(v-1)`
days after the epoch and unconditionally assigns both the canonical and the
reindex frequency to `"D"`, regardless of the previous state and of the
observed deltas; and this reassignment is (re-)applied by every successful
internal produce, since `_produce` regularizes the query frame. -/
theorem C10_integer_timestamp_daily :
    (∀ (s : PState) (frame : List Row), s.intTime = true →
      (sort_by_timestamp s frame).1.freq = some "D" ∧
      (sort_by_timestamp s frame).1.reindFreq = some "D" ∧
      (sort_by_timestamp s frame).2 =
        List.insertionSort rowLE
          (frame.map (fun r => { r with ts := r.ts.map (fun v => (v - 1) * 86400) }))) ∧
    (∀ (M : String → Nat → List Rat) (s : PState) (inputs : List Row)
        (s1 : PState) (c : List (List (List Rat)) × List (List Int)),
      s.intTime = true → produce_internal M s inputs = Except.ok (s1, c) →
      s1.freq = some "D" ∧ s1.reindFreq = some "D") := by
  constructor
  · intro s frame h
    refine ⟨by simp [sort_by_timestamp, freqEffect, h], by simp [sort_by_timestamp, freqEffect, h], ?_⟩
    have hc : convertTs true = fun v => (v - 1) * 86400 := by
      funext v; simp [convertTs]
    simp [sort_by_timestamp, convertFrame, h, hc]
  · intro M s inputs s1 c hint hp
    unfold produce_internal at hp
    by_cases hf : s.isFit = false
    · simp [hf] at hp
    · rw [if_neg hf] at hp
      rcases hr : reindex s inputs with ⟨a, b⟩
      rw [hr] at hp
      cases b with
      | error e => simp at hp
      | ok rr =>
          simp only [Except.ok.injEq, Prod.mk.injEq] at hp
          have ha : a = freqEffect s := by
            cases hg : s.grouped with
            | false => simp [reindex, hg] at hr; exact hr.1.symm
            | true =>
                cases inputs with
                | nil => simp [reindex, hg] at hr
                | cons x xs => simp [reindex, hg] at hr; exact hr.1.symm
          have : s1 = a := hp.1.symm
          subst this
          rw [ha]
          simp [freqEffect, hint]

/-- C10 witness: a fitted Integer-timestamp instance; conversion of raw day 2
and frequency forcing, at sort time and through a produce call. -/
theorem C10_integer_timestamp_daily_witness :
    ((sort_by_timestamp sFitI [rowAt 2]).1.freq = some "D" ∧
      (sort_by_timestamp sFitI [rowAt 2]).1.reindFreq = some "D" ∧
      (sort_by_timestamp sFitI [rowAt 2]).2 =
        List.insertionSort rowLE
          ([rowAt 2].map (fun r => { r with ts := r.ts.map (fun v => (v - 1) * 86400) }))) ∧
    (sFitI.freq = some "D" ∧ sFitI.reindFreq = some "D") := by
  constructor
  · exact C10_integer_timestamp_daily.1 sFitI [rowAt 2] rfl
  · exact C10_integer_timestamp_daily.2 Mfix sFitI [rowAt 2] sFitI
      ([[[10, 20, 30]]], [[2]]) rfl rfl

/-- C9 witness: quantiles `{0.1, 0.9}` (scenario D) give exactly the three
columns `0.5, 0.1, 0.9`. -/
theorem C9_ci_columns_witness :
    (ciColumns true [(1 : Rat)/10, (9 : Rat)/10] [[[1, 2], [3, 4], [5, 6]]]
        [[1]]).map Prod.fst =
      [(1 : Rat)/2, (1 : Rat)/10, (9 : Rat)/10] :=
  (C9_ci_columns.1 true [(1 : Rat)/10, (9 : Rat)/10] [[[1, 2], [3, 4], [5, 6]]]
    [[1]] (by norm_num) (by norm_num)).1

/-- C8 counterexample to the second half of the claim.  A two-row daily series
with a one-day hole is regularized into three rows whose middle row is the
all-missing gap row (its timestamp cell is NaT; the imputed real column stays
missing because the series has no valid real values to interpolate from).  A
second application of the regularizer to that output does not return it
unchanged: `pd.date_range` raises on the NaT end of the range, because the
sort moves the NaT gap row last and its timestamp becomes the end of the span,
so the second application fails instead of being the identity. -/
theorem C8_second_application_fails :
    robust_reindex 1 [⟨none, some 0, some 5, none, none⟩,
        ⟨none, some 2, some 7, none, none⟩] =
      Except.ok ⟨[⟨none, some 0, some 5, none, none⟩, gapRow,
          ⟨none, some 2, some 7, none, none⟩],
        [some 0, some 1, some 2], [some 0, some 2]⟩ ∧
    robust_reindex 1 [⟨none, some 0, some 5, none, none⟩, gapRow,
        ⟨none, some 2, some 7, none, none⟩] =
      Except.error "cannot reindex from missing timestamps" :=
  ⟨rfl, rfl⟩

/-- C8.  Amended idempotence of the Series Regularizer.  First half of the
claim (confirmed): a series that is already sorted, duplicate-free and
contiguous at the reindex step `p` (its timestamp column is the arithmetic
progression `t0, t0+p, ...`) and gap-free (its real, categorical and grouping
cells are all present, so imputation cannot change them) is returned
unchanged.  Second half, amended: a second application of the regularizer to
the output of a first application returns that output unchanged provided the
first application introduced no gap row (no NaT timestamp in the output rows);
`C8_second_application_fails` shows the unamended second half is false when a
gap row is introduced. -/
theorem C8_regularizer_idempotent (p : Int) (hp : 0 < p)
    (frame : List Row) (t0 : Int)
    (hts : frame.map (fun r => r.ts) =
      (arithProg t0 p frame.length).map some)
    (hfull : ∀ r ∈ frame, r.real.isSome ∧ r.cat.isSome ∧ r.grp.isSome)
    (frame2 : List Row) (out : RegOut)
    (hok : robust_reindex p frame2 = Except.ok out)
    (hng : none ∉ out.rows.map (fun r => r.ts)) :
    robust_reindex p frame =
      Except.ok ⟨frame, frame.map (fun r => r.ts), frame.map (fun r => r.ts)⟩ ∧
    robust_reindex p out.rows =
      Except.ok ⟨out.rows, out.rows.map (fun r => r.ts),
        out.rows.map (fun r => r.ts)⟩ := by
  constructor
  · rw [regularize_of_regular p frame t0 hp hts, applyCols_eq_self frame hfull]
  · exact robust_reindex_second p hp frame2 out hok hng

/-- C8 witness: a complete two-row daily series is returned unchanged, and a
second application to the (gap-free) output of regularizing the empty series
is the identity on it. -/
theorem C8_regularizer_idempotent_witness :
    robust_reindex 1 [(⟨some "A", some 0, some 5, some 1, some "x"⟩ : Row),
        ⟨some "A", some 1, some 6, some 2, some "y"⟩] =
      Except.ok ⟨[(⟨some "A", some 0, some 5, some 1, some "x"⟩ : Row),
          ⟨some "A", some 1, some 6, some 2, some "y"⟩],
        [some 0, some 1], [some 0, some 1]⟩ ∧
    robust_reindex 1 ([] : List Row) = Except.ok ⟨[], [], []⟩ :=
  C8_regularizer_idempotent 1 (by decide)
    [⟨some "A", some 0, some 5, some 1, some "x"⟩,
      ⟨some "A", some 1, some 6, some 2, some "y"⟩] 0
    (by decide) (by decide) [] ⟨[], [], []⟩ rfl (by decide)

end DeepAr
